import Mathlib

/-!
# ChunkCIDR: splitting a CIDR block into equally sized sub-blocks

A shallow embedding of `pkg/chunker/chunker.go` (`ChunkCIDR`, `ChunkCIDRBySize`,
`ipToBigInt`, `bigIntToIP`) together with the parts of the Go standard library
the code calls (`net.ParseCIDR`, `net.IP`, `net.IPMask`, `net.IPNet`,
`math/big`'s `SetBytes`/`Bytes`/`Lsh`).

Conventions of the embedding
* a Go byte is a `Nat` below 256, a byte slice is a `List Nat`, and Go's `nil`
  slice is the empty list (no function below returns an empty non-nil slice);
* a Go `string` is a Lean `String`, scanned as its list of characters;
* Go's `int` is `Int`: on every input representable in a machine `int` the
  code never leaves the machine range (`size-1` with `size > 0`, halving,
  a counter below 64, differences of prefix lengths), so no wrap-around is lost;
* `*big.Int` is `Nat` (only non-negative values are ever built);
* the `error` values built by `fmt.Errorf` are the constructors of `ChunkErr`,
  one per format string, carrying the formatted arguments.
-/

namespace Chunker

/-! ## Go standard library: `net` byte-slice types -/

/-- Go `net.IP`, a byte slice. -/
abbrev IP := List Nat

/-- Go `net.IPMask`, a byte slice. -/
abbrev IPMask := List Nat

/-- Go `net.IPNet`. -/
structure IPNet where
  IP : List Nat
  Mask : List Nat
deriving DecidableEq, Repr

/-- Go `net.IPv4len`. -/
def IPv4len : Nat := 4

/-- Go `net.IPv6len`. -/
def IPv6len : Nat := 16

/-- Go `net.v4InV6Prefix`. -/
def v4InV6Prefix : List Nat := [0, 0, 0, 0, 0, 0, 0, 0, 0, 0, 0xff, 0xff]

/-- Go `net.IPv4(a, b, c, d)`: the 16-byte form of an IPv4 address. -/
def IPv4 (a b c d : Nat) : IP := v4InV6Prefix ++ [a, b, c, d]

/-- Go `net.isZeros`. -/
def isZeros (p : List Nat) : Bool := p.all (fun b => b == 0)

/-- Go `net.allFF`. -/
def allFF (b : List Nat) : Bool := b.all (fun c => c == 0xff)

/-- Go `(net.IP).To4`: `[]` stands for `nil`. -/
def To4 (ip : IP) : IP :=
  if ip.length = IPv4len then ip
  else if ip.length = IPv6len ∧ isZeros (ip.take 10) = true ∧ ip.getD 10 0 = 0xff
      ∧ ip.getD 11 0 = 0xff then
    (ip.drop 12).take 4
  else []

/-- Go `(net.IP).To16`: `[]` stands for `nil`. -/
def To16 (ip : IP) : IP :=
  if ip.length = IPv4len then
    IPv4 (ip.getD 0 0) (ip.getD 1 0) (ip.getD 2 0) (ip.getD 3 0)
  else if ip.length = IPv6len then ip
  else []

/-- Go `(net.IP).Equal`. -/
def IPEqual (ip x : IP) : Bool :=
  if ip.length = x.length then ip == x
  else if ip.length = IPv4len ∧ x.length = IPv6len then
    x.take 12 == v4InV6Prefix && ip == x.drop 12
  else if ip.length = IPv6len ∧ x.length = IPv4len then
    ip.take 12 == v4InV6Prefix && ip.drop 12 == x
  else false

/-- The loop of Go `net.CIDRMask`: `l` bytes remain to be written, `n` ones remain. -/
def cidrMaskLoop : Nat → Nat → List Nat
  | 0, _ => []
  | l + 1, n =>
    if n ≥ 8 then 0xff :: cidrMaskLoop l (n - 8)
    else (0xff - 0xff / 2 ^ n) :: cidrMaskLoop l 0

/-- Go `net.CIDRMask(ones, bits)`. -/
def CIDRMask (ones bits : Int) : IPMask :=
  if bits ≠ 8 * 4 ∧ bits ≠ 8 * 16 then []
  else if ones < 0 ∨ ones > bits then []
  else cidrMaskLoop (bits.toNat / 8) ones.toNat

/-- The inner loop of Go `net.simpleMaskLength` counting the leading one bits of a byte
(`for v&0x80 != 0 { n++; v <<= 1 }`); returns the count and the shifted byte. -/
def leadingOnes : Nat → Nat → Nat → Nat × Nat
  | 0, n, v => (n, v)
  | fuel + 1, n, v =>
    if v / 0x80 % 2 ≠ 0 then leadingOnes fuel (n + 1) (v * 2 % 256) else (n, v)

/-- Go `net.simpleMaskLength`, with `n` the number of bits counted so far. -/
def simpleMaskLengthFrom : List Nat → Nat → Int
  | [], n => n
  | v :: rest, n =>
    if v = 0xff then simpleMaskLengthFrom rest (n + 8)
    else
      let r := leadingOnes 8 n v
      if r.2 ≠ 0 then -1
      else if rest.all (fun b => b == 0) then (r.1 : Int) else -1

/-- Go `net.simpleMaskLength`. -/
def simpleMaskLength (mask : IPMask) : Int := simpleMaskLengthFrom mask 0

/-- Go `(net.IPMask).Size`. -/
def IPMaskSize (m : IPMask) : Int × Int :=
  let ones := simpleMaskLength m
  if ones = -1 then (0, 0) else (ones, (m.length : Int) * 8)

/-- Go `(net.IP).Mask`. -/
def IPMaskApply (ip : IP) (mask : IPMask) : IP :=
  let mask := if mask.length = IPv6len ∧ ip.length = IPv4len ∧ allFF (mask.take 12) = true
    then mask.drop 12 else mask
  let ip := if mask.length = IPv4len ∧ ip.length = IPv6len ∧ ip.take 12 = v4InV6Prefix
    then ip.drop 12 else ip
  if ip.length ≠ mask.length then []
  else List.zipWith (fun a b => a &&& b) ip mask

/-! ## Go standard library: rendering (`IP.String`, `IPNet.String`) -/

/-- The digit character of a value below 16 (Go's `digits` table). -/
def digitChar (d : Nat) : Char := "0123456789abcdef".toList.getD d '0'

/-- Loop of Go `net.uitoa` / `strconv.Itoa` for a non-negative value. -/
def uitoaLoop : Nat → Nat → List Char → List Char
  | 0, _, acc => acc
  | fuel + 1, n, acc =>
    if n < 10 then digitChar n :: acc
    else uitoaLoop fuel (n / 10) (digitChar (n % 10) :: acc)

/-- Go `net.uitoa`: decimal text of an unsigned integer. -/
def uitoa (n : Nat) : List Char := uitoaLoop (n + 1) n []

/-- Go `netip.appendHex`: lower-case hexadecimal without leading zeros. -/
def appendHex (x : Nat) : List Char :=
  (if x ≥ 0x1000 then [digitChar (x / 0x1000)] else []) ++
  (if x ≥ 0x100 then [digitChar (x / 0x100 % 16)] else []) ++
  (if x ≥ 0x10 then [digitChar (x / 0x10 % 16)] else []) ++
  [digitChar (x % 16)]

/-- Go `net.hexString`: two hexadecimal digits per byte. -/
def hexString (b : List Nat) : List Char :=
  b.flatMap (fun v => [digitChar (v / 16), digitChar (v % 16)])

/-- Dotted-decimal text of a 4-byte address (`netip.Addr.string4`). -/
def string4 (p : List Nat) : List Char :=
  uitoa (p.getD 0 0) ++ '.' :: uitoa (p.getD 1 0) ++ '.' :: uitoa (p.getD 2 0)
    ++ '.' :: uitoa (p.getD 3 0)

/-- The 16-bit groups of a 16-byte address (`netip.Addr.v6u16`). -/
def v6u16 (ip : List Nat) (i : Nat) : Nat := ip.getD (2 * i) 0 * 256 + ip.getD (2 * i + 1) 0

/-- Inner loop of `netip.Addr.appendTo6`: the end `j` of the run of zero groups
starting at group `i`. -/
def zeroRunEnd (ip : List Nat) : Nat → Nat → Nat
  | 0, j => j
  | fuel + 1, j => if j < 8 ∧ v6u16 ip j = 0 then zeroRunEnd ip fuel (j + 1) else j

/-- First loop of `netip.Addr.appendTo6`: the longest run of at least two zero groups,
as `(zeroStart, zeroEnd)` with `(255, 255)` when there is none. -/
def longestZeroRun (ip : List Nat) : Nat → Nat → Nat × Nat → Nat × Nat
  | 0, _, z => z
  | fuel + 1, i, z =>
    let j := zeroRunEnd ip 8 i
    let l := j - i
    let z := if l ≥ 2 ∧ l > z.2 - z.1 then (i, j) else z
    longestZeroRun ip fuel (i + 1) z

/-- Second loop of `netip.Addr.appendTo6`. -/
def appendTo6Loop (ip : List Nat) (zeroStart zeroEnd : Nat) : Nat → Nat → List Char → List Char
  | 0, _, ret => ret
  | fuel + 1, i, ret =>
    if i < 8 then
      if i = zeroStart then
        let ret := ret ++ [':', ':']
        let i := zeroEnd
        if i ≥ 8 then ret
        else appendTo6Loop ip zeroStart zeroEnd fuel (i + 1) (ret ++ appendHex (v6u16 ip i))
      else
        let ret := if i > 0 then ret ++ [':'] else ret
        appendTo6Loop ip zeroStart zeroEnd fuel (i + 1) (ret ++ appendHex (v6u16 ip i))
    else ret

/-- Text of a 16-byte IPv6 address (`netip.Addr.string6`, RFC 5952). -/
def string6 (ip : List Nat) : List Char :=
  let z := longestZeroRun ip 8 0 (255, 255)
  appendTo6Loop ip z.1 z.2 8 0 []

/-- Go `(net.IP).String`, as a list of characters. -/
def IPChars (ip : IP) : List Char :=
  if ip.length = 0 then "<nil>".toList
  else if ip.length ≠ IPv4len ∧ ip.length ≠ IPv6len then '?' :: hexString ip
  else if (To4 ip).length = IPv4len then string4 (To4 ip)
  else string6 ip

/-- Go `(net.IP).String`. -/
def IPString (ip : IP) : String := String.mk (IPChars ip)

/-- Go `net.networkNumberAndMask`; `none` stands for the `(nil, nil)` result. -/
def networkNumberAndMask (n : IPNet) : Option (IP × IPMask) :=
  let ip4 := To4 n.IP
  if ip4 = [] ∧ n.IP.length ≠ IPv6len then none
  else
    let ip := if ip4 = [] then n.IP else ip4
    let m := n.Mask
    if m.length = IPv4len then
      if ip.length ≠ IPv4len then none else some (ip, m)
    else if m.length = IPv6len then
      if ip.length = IPv4len then some (ip, m.drop 12) else some (ip, m)
    else none

/-- Go `(*net.IPNet).String`, as a list of characters. -/
def IPNetChars (n : IPNet) : List Char :=
  match networkNumberAndMask n with
  | none => "<nil>".toList
  | some (nn, m) =>
    let l := simpleMaskLength m
    if l = -1 then IPChars nn ++ '/' :: hexString m
    else IPChars nn ++ '/' :: uitoa l.toNat

/-- Go `(*net.IPNet).String`. -/
def IPNetString (n : IPNet) : String := String.mk (IPNetChars n)

/-! ## Go standard library: parsing (`netip.ParseAddr`, `net.ParseCIDR`) -/

/-- Go `netip.Addr`: the 16-byte value (`As16`) and whether it is an IPv4 address (`Is4`). -/
structure Addr where
  bytes : List Nat
  is4 : Bool
deriving DecidableEq, Repr

/-- Go `netip.AddrFrom4`. -/
def AddrFrom4 (f : List Nat) : Addr := ⟨v4InV6Prefix ++ f, true⟩

/-- Go `netip.AddrFrom16`. -/
def AddrFrom16 (b : List Nat) : Addr := ⟨b, false⟩

/-- Go `(netip.Addr).BitLen`. -/
def Addr.BitLen (a : Addr) : Int := if a.is4 then 32 else 128

/-- Go `(netip.Addr).As16`. -/
def Addr.As16 (a : Addr) : List Nat := a.bytes

/-- Test `'0' <= c && c <= '9'`. -/
def isDigit (c : Char) : Bool := decide ('0' ≤ c) && decide (c ≤ '9')

/-- Value of a decimal digit character, `c - '0'`. -/
def digitVal (c : Char) : Nat := c.toNat - 48

/-- Value of a hexadecimal digit character, if it is one. -/
def hexVal (c : Char) : Option Nat :=
  if decide ('0' ≤ c) && decide (c ≤ '9') then some (c.toNat - 48)
  else if decide ('a' ≤ c) && decide (c ≤ 'f') then some (c.toNat - 97 + 10)
  else if decide ('A' ≤ c) && decide (c ≤ 'F') then some (c.toNat - 65 + 10)
  else none

/-- Loop of Go `netip.parseIPv4Fields`; `prev` is the previous character (`none` at index 0).
Returns `(val, pos, fields)` at the end of the text, `none` on a parse error. -/
def parseIPv4FieldsLoop :
    List Char → Option Char → Nat → Nat → Nat → List Nat → Option (Nat × Nat × List Nat)
  | [], _, val, pos, _, fields => some (val, pos, fields)
  | c :: rest, prev, val, pos, digLen, fields =>
    if isDigit c then
      if digLen = 1 ∧ val = 0 then none
      else
        let val := val * 10 + digitVal c
        if val > 255 then none
        else parseIPv4FieldsLoop rest (some c) val pos (digLen + 1) fields
    else if c = '.' then
      if prev = none ∨ rest = [] ∨ prev = some '.' then none
      else if pos = 3 then none
      else parseIPv4FieldsLoop rest (some c) 0 (pos + 1) 0 (fields.set pos (val % 256))
    else none

/-- Go `netip.parseIPv4Fields` on a 4-byte buffer. -/
def parseIPv4Fields (s : List Char) (fields : List Nat) : Option (List Nat) :=
  match parseIPv4FieldsLoop s none 0 0 0 fields with
  | none => none
  | some (val, pos, fields) => if pos < 3 then none else some (fields.set 3 (val % 256))

/-- Go `netip.parseIPv4`. -/
def parseIPv4 (s : List Char) : Option Addr :=
  match parseIPv4Fields s [0, 0, 0, 0] with
  | none => none
  | some fields => some (AddrFrom4 fields)

/-- The hexadecimal-group scan of Go `netip.parseIPv6`: returns `(off, acc, s[off:])`,
`none` when a group has more than four digits or overflows 16 bits. -/
def parseHexGroup : List Char → Nat → Nat → Option (Nat × Nat × List Char)
  | [], off, acc => some (off, acc, [])
  | c :: cs, off, acc =>
    match hexVal c with
    | none => some (off, acc, c :: cs)
    | some d =>
      let acc := (acc * 16 + d) % 2 ^ 32
      if off > 3 then none
      else if acc > 0xffff then none
      else parseHexGroup cs (off + 1) acc

/-- Write four bytes at positions `i .. i+3`. -/
def set4 (ip : List Nat) (i : Nat) (f : List Nat) : List Nat :=
  (((ip.set i (f.getD 0 0)).set (i + 1) (f.getD 1 0)).set (i + 2) (f.getD 2 0)).set (i + 3)
    (f.getD 3 0)

/-- Main loop of Go `netip.parseIPv6` (`for i < 16`). The state is the rest of the text,
the write position `i`, the 16-byte buffer and the position of the ellipsis. -/
def parseIPv6Loop :
    Nat → List Char → Nat → List Nat → Option Nat → Option (List Char × Nat × List Nat × Option Nat)
  | 0, s, i, ip, ellipsis => some (s, i, ip, ellipsis)
  | fuel + 1, s, i, ip, ellipsis =>
    if i < 16 then
      match parseHexGroup s 0 0 with
      | none => none
      | some (off, acc, rest) =>
        if off = 0 then none
        else if rest.head? = some '.' then
          if ellipsis = none ∧ i ≠ 12 then none
          else if i + 4 > 16 then none
          else
            match parseIPv4Fields s [0, 0, 0, 0] with
            | none => none
            | some f => some ([], i + 4, set4 ip i f, ellipsis)
        else
          let ip := (ip.set i (acc / 256 % 256)).set (i + 1) (acc % 256)
          let i := i + 2
          match rest with
          | [] => some ([], i, ip, ellipsis)
          | c :: s1 =>
            if c ≠ ':' then none
            else
              match s1 with
              | [] => none
              | c1 :: s2 =>
                if c1 = ':' then
                  if ellipsis ≠ none then none
                  else
                    match s2 with
                    | [] => some ([], i, ip, some i)
                    | _ => parseIPv6Loop fuel s2 i ip (some i)
                else parseIPv6Loop fuel s1 i ip ellipsis
    else some (s, i, ip, ellipsis)

/-- The copy loop of the ellipsis expansion in Go `netip.parseIPv6`
(`for j := i-1; j >= ellipsis; j-- { ip[j+n] = ip[j] }`), started with `j + 1 = i`. -/
def expandLoop (n ellipsis : Nat) : Nat → List Nat → List Nat
  | 0, ip => ip
  | j + 1, ip =>
    if j ≥ ellipsis then expandLoop n ellipsis j (ip.set (j + n) (ip.getD j 0)) else ip

/-- Go `clear(ip[e : e+n])`. -/
def clearRange (e : Nat) : Nat → List Nat → List Nat
  | 0, ip => ip
  | n + 1, ip => clearRange e n (ip.set (e + n) 0)

/-- The part of Go `netip.parseIPv6` after the leading ellipsis has been looked for: the main
loop on the rest `s` of the text, then the check that the text is used up and the expansion of
the ellipsis. -/
def parseIPv6Rest (s : List Char) (ellipsis : Option Nat) : Option Addr :=
  match parseIPv6Loop 16 s 0 (List.replicate 16 0) ellipsis with
  | none => none
  | some (s, i, ip, ellipsis) =>
    if s ≠ [] then none
    else if i < 16 then
      match ellipsis with
      | none => none
      | some e =>
        let n := 16 - i
        some (AddrFrom16 (clearRange e n (expandLoop n e i ip)))
    else if ellipsis ≠ none then none
    else some (AddrFrom16 ip)

/-- Go `netip.parseIPv6`, for a use that rejects every zone (as `net.ParseCIDR` does:
a text with a `%` either has an empty zone, an error, or a zone `ParseCIDR` refuses). -/
def parseIPv6 (input : List Char) : Option Addr :=
  if input.contains '%' then none
  else
    match input with
    | ':' :: ':' :: rest =>
      if rest = [] then some (AddrFrom16 (List.replicate 16 0))
      else parseIPv6Rest rest (some 0)
    | _ => parseIPv6Rest input none

/-- Go `netip.ParseAddr`: dispatch on the first of `.`, `:` and `%`. -/
def ParseAddr (s : List Char) : Option Addr :=
  match s.find? (fun c => c = '.' ∨ c = ':' ∨ c = '%') with
  | none => none
  | some c =>
    if c = '.' then parseIPv4 s
    else if c = ':' then parseIPv6 s
    else none

/-- Go `net.big`, the overflow bound of `dtoi`. -/
def dtoiBig : Nat := 0xFFFFFF

/-- Loop of Go `net.dtoi`: `(n, i, ok)`. -/
def dtoiLoop : List Char → Nat → Nat → Nat × Nat × Bool
  | [], n, i => (n, i, true)
  | c :: cs, n, i =>
    if isDigit c then
      let n := n * 10 + digitVal c
      if n ≥ dtoiBig then (dtoiBig, i, false) else dtoiLoop cs n (i + 1)
    else (n, i, true)

/-- Go `net.dtoi`: decimal to integer, `(n, i, ok)`. -/
def dtoi (s : List Char) : Nat × Nat × Bool :=
  let r := dtoiLoop s 0 0
  if r.2.2 = false then r
  else if r.2.1 = 0 then (0, 0, false)
  else r

/-- Go `net.ParseCIDR`: the address as written (16 bytes) and the network it implies;
`none` stands for the parse error. -/
def ParseCIDR (s : String) : Option (IP × IPNet) :=
  let cs := s.toList
  match cs.indexOf? '/' with
  | none => none
  | some i =>
    let addr := cs.take i
    let mask := cs.drop (i + 1)
    match ParseAddr addr with
    | none => none
    | some ipAddr =>
      let r := dtoi mask
      if r.2.2 = false ∨ r.2.1 ≠ mask.length ∨ (r.1 : Int) > ipAddr.BitLen then none
      else
        let m := CIDRMask r.1 ipAddr.BitLen
        let addr16 := ipAddr.As16
        some (addr16, ⟨IPMaskApply addr16 m, m⟩)

/-! ## Go standard library: `math/big` -/

/-- Go `(*big.Int).SetBytes`: the value of a big-endian byte slice. -/
def SetBytes (b : List Nat) : Nat := b.foldl (fun acc x => acc * 256 + x) 0

/-- Loop producing the big-endian bytes of a natural number, most significant first. -/
def bytesLoop : Nat → Nat → List Nat → List Nat
  | 0, _, acc => acc
  | fuel + 1, n, acc => if n = 0 then acc else bytesLoop fuel (n / 256) (n % 256 :: acc)

/-- Go `(*big.Int).Bytes`: the minimal big-endian encoding (empty for zero). -/
def Bytes (n : Nat) : List Nat := bytesLoop n n []

/-! ## `pkg/chunker/chunker.go` -/

/-- The errors `ChunkCIDR` and `ChunkCIDRBySize` build with `fmt.Errorf`, one constructor
per format string, with the formatted arguments. -/
inductive ChunkErr where
  /-- Message `invalid cidr: %w`. -/
  | invalidCidr
  /-- Message `target prefix %d is smaller than original prefix %d`. -/
  | prefixSmaller (targetPrefix origPrefix : Int)
  /-- Message `target prefix %d is larger than max bits %d`. -/
  | prefixLarger (targetPrefix maxBits : Int)
  /-- Message `requested split too large: diff=%d`. -/
  | splitTooLarge (diff : Int)
  /-- Message `size must be > 0`. -/
  | sizeNotPositive
  /-- Message `size must be a power of two`. -/
  | sizeNotPowerOfTwo
  /-- Message `requested size yields prefix /%d which is smaller than original prefix /%d`. -/
  | sizeTooLarge (targetPrefix origPrefix : Int)
deriving DecidableEq, Repr

/-- The error kinds of the specification (section 7). -/
inductive ErrorKind where
  | MalformedCIDR
  | InvalidPrefix
  | SplitTooLarge
  | InvalidSize
deriving DecidableEq, Repr

/-- The specification's kind of each error the code builds. -/
def ChunkErr.kind : ChunkErr → ErrorKind
  | .invalidCidr => .MalformedCIDR
  | .prefixSmaller _ _ => .InvalidPrefix
  | .prefixLarger _ _ => .InvalidPrefix
  | .splitTooLarge _ => .SplitTooLarge
  | .sizeNotPositive => .InvalidSize
  | .sizeNotPowerOfTwo => .InvalidSize
  | .sizeTooLarge _ _ => .InvalidSize

/-- Source `ipToBigInt`: 4 bytes for an IPv4 address, 16 bytes otherwise. -/
def ipToBigInt (ip : IP) : Nat :=
  if To4 ip ≠ [] then SetBytes (To4 ip)
  else
    let b := To16 ip
    let b := if b = [] then ip else b
    SetBytes b

/-- Source `bigIntToIP`: left-pad to the byte length, or keep the least significant bytes. -/
def bigIntToIP (i : Nat) (maxBits : Int) : IP :=
  let byteLen : Nat := if maxBits = 32 then 4 else 16
  let b := Bytes i
  let b :=
    if b.length < byteLen then List.replicate (byteLen - b.length) 0 ++ b
    else if b.length > byteLen then b.drop (b.length - byteLen)
    else b
  if byteLen = 4 then IPv4 (b.getD 0 0) (b.getD 1 0) (b.getD 2 0) (b.getD 3 0)
  else b

/-- The sub-block built in one iteration of the loop of `ChunkCIDR` (source lines 54-57). -/
def subBlockAt (base step : Nat) (maxBits targetPrefix : Int) (i : Nat) : IPNet :=
  let offset := i * step
  let cur := base + offset
  let curIP := bigIntToIP cur maxBits
  ⟨curIP, CIDRMask targetPrefix maxBits⟩

/-- The loop of `ChunkCIDR` (`for i := 0; i.Cmp(count) < 0; i.Add(i, one)`), appending the
text of each sub-block to `res`. The loop runs at most `count` times; `fuel` bounds it. -/
def chunkLoop (count step base : Nat) (maxBits targetPrefix : Int) :
    Nat → Nat → List String → List String
  | 0, _, res => res
  | fuel + 1, i, res =>
    if i < count then
      chunkLoop count step base maxBits targetPrefix fuel (i + 1)
        (res ++ [IPNetString (subBlockAt base step maxBits targetPrefix i)])
    else res

/-- Source `ChunkCIDR`, after `net.ParseCIDR` has succeeded with `(ip, ipnet)`. -/
def chunkParsed (ip : IP) (ipnet : IPNet) (targetPrefix : Int) : Except ChunkErr (List String) :=
  let maxBits : Int := if To4 ip ≠ [] then 32 else 128
  let origPrefix : Int := (IPMaskSize ipnet.Mask).1
  if targetPrefix < origPrefix then .error (.prefixSmaller targetPrefix origPrefix)
  else if targetPrefix > maxBits then .error (.prefixLarger targetPrefix maxBits)
  else if targetPrefix = origPrefix then .ok [IPNetString ipnet]
  else
    let diff := targetPrefix - origPrefix
    if diff > 32 then .error (.splitTooLarge diff)
    else
      let count := 2 ^ diff.toNat
      let step := 2 ^ (maxBits - targetPrefix).toNat
      let base := ipToBigInt ip
      .ok (chunkLoop count step base maxBits targetPrefix count 0 [])

/-- Source `ChunkCIDR`. -/
def ChunkCIDR (cidr : String) (targetPrefix : Int) : Except ChunkErr (List String) :=
  match ParseCIDR cidr with
  | none => .error .invalidCidr
  | some (ip, ipnet) => chunkParsed ip ipnet targetPrefix

/-- The halving loop of `ChunkCIDRBySize` (`for v > 1 { v >>= 1; log++ }`): returns `log`. -/
def log2Loop : Nat → Int → Int → Int
  | 0, _, log => log
  | fuel + 1, v, log => if v > 1 then log2Loop fuel (v / 2) (log + 1) else log

/-- Source `ChunkCIDRBySize`. -/
def ChunkCIDRBySize (cidr : String) (size : Int) : Except ChunkErr (List String) :=
  if size ≤ 0 then .error .sizeNotPositive
  else if size.toNat &&& (size - 1).toNat ≠ 0 then .error .sizeNotPowerOfTwo
  else
    match ParseCIDR cidr with
    | none => .error .invalidCidr
    | some (ip, ipnet) =>
      let maxBits : Int := if To4 ip ≠ [] then 32 else 128
      let log := log2Loop size.toNat size 0
      let targetPrefix := maxBits - log
      let origPrefix : Int := (IPMaskSize ipnet.Mask).1
      if targetPrefix < origPrefix then .error (.sizeTooLarge targetPrefix origPrefix)
      else ChunkCIDR cidr targetPrefix

/-! ## Notions used to state the properties -/

/-- The address width `maxBits` the code selects (source lines 20-25 and 80-85). -/
def maxBitsOf (ip : IP) : Int := if To4 ip ≠ [] then 32 else 128

/-- The original prefix length `origPrefix` the code reads off the parsed network
(source lines 27 and 98). -/
def origPrefixOf (ipnet : IPNet) : Int := (IPMaskSize ipnet.Mask).1

/-- The specification's error kind of a result, `none` for a success. -/
def errKind {α : Type} : Except ChunkErr α → Option ErrorKind
  | .ok _ => none
  | .error e => some e.kind

/-- The sub-blocks (`*net.IPNet` values) whose texts `ChunkCIDR` returns, after a successful
parse: the parsed network itself when the target prefix is the original one (source line 35),
otherwise the networks built at source line 57 for `i = 0, ..., count - 1`. -/
def subBlocksParsed (ip : IP) (ipnet : IPNet) (targetPrefix : Int) :
    Except ChunkErr (List IPNet) :=
  let maxBits : Int := if To4 ip ≠ [] then 32 else 128
  let origPrefix : Int := (IPMaskSize ipnet.Mask).1
  if targetPrefix < origPrefix then .error (.prefixSmaller targetPrefix origPrefix)
  else if targetPrefix > maxBits then .error (.prefixLarger targetPrefix maxBits)
  else if targetPrefix = origPrefix then .ok [ipnet]
  else
    let diff := targetPrefix - origPrefix
    if diff > 32 then .error (.splitTooLarge diff)
    else
      let count := 2 ^ diff.toNat
      let step := 2 ^ (maxBits - targetPrefix).toNat
      let base := ipToBigInt ip
      .ok ((List.range count).map (subBlockAt base step maxBits targetPrefix))

/-- The sub-blocks whose texts `ChunkCIDR` returns (see `ChunkCIDR_eq_subBlocks`). -/
def subBlocks (cidr : String) (targetPrefix : Int) : Except ChunkErr (List IPNet) :=
  match ParseCIDR cidr with
  | none => .error .invalidCidr
  | some (ip, ipnet) => subBlocksParsed ip ipnet targetPrefix

/-- The address of a block read as an unsigned integer of the address width:
the four bytes of its IPv4 form when the width is 32, its sixteen bytes otherwise. -/
def addrValue (maxBits : Int) (ip : IP) : Nat :=
  if maxBits = 32 then SetBytes (To4 ip) else SetBytes (To16 ip)

/-- The prefix length of a sub-block, as `(net.IPMask).Size` reports it. -/
def prefixLen (n : IPNet) : Int := (IPMaskSize n.Mask).1

/-- The address written in the CIDR text is the network address: masking off the host bits
changed nothing (Go: `ip.Equal(ipnet.IP)`), i.e. all host bits of the address are zero. -/
def hostBitsZero (ip : IP) (ipnet : IPNet) : Prop := IPEqual ip ipnet.IP = true

instance (ip : IP) (ipnet : IPNet) : Decidable (hostBitsZero ip ipnet) := by
  unfold hostBitsZero; infer_instance

/-- Every element of a byte slice is a byte. -/
def AllBytes (l : List Nat) : Prop := ∀ b ∈ l, b < 256

/-- The padding or truncation step of `bigIntToIP` (source lines 127-135) on its own:
left-pad `b` with zeros to `byteLen` bytes, or keep its last `byteLen` bytes. -/
def fitBytes (byteLen : Nat) (b : List Nat) : List Nat :=
  if b.length < byteLen then List.replicate (byteLen - b.length) 0 ++ b
  else if b.length > byteLen then b.drop (b.length - byteLen)
  else b

/-- The address `x` lies in the range `[a, a + 2^(maxBits - t))` of the sub-block `n`, where
`a` is the address of `n` read over the address width. -/
def inSubBlock (maxBits t : Int) (n : IPNet) (x : Nat) : Prop :=
  addrValue maxBits n.IP ≤ x ∧ x < addrValue maxBits n.IP + 2 ^ (maxBits - t).toNat

/-- The results of `ChunkCIDR(s, q)` for each text `s` of a list, concatenated in order; the
first error, if any call fails. -/
def chunkEach (q : Int) : List String → Except ChunkErr (List String)
  | [] => .ok []
  | s :: rest =>
    match ChunkCIDR s q with
    | .error e => .error e
    | .ok l =>
      match chunkEach q rest with
      | .error e => .error e
      | .ok ls => .ok (l ++ ls)

/-- A split in two steps: `ChunkCIDR(cidr, p)`, then `ChunkCIDR(s, q)` on each returned text
`s`, concatenated in order. -/
def composeSplit (cidr : String) (p q : Int) : Except ChunkErr (List String) :=
  match ChunkCIDR cidr p with
  | .error e => .error e
  | .ok subs => chunkEach q subs

/-- A returned CIDR text read back the way the code itself reads a CIDR text: parsed by
`net.ParseCIDR` (source line 15), with the address as the integer `ipToBigInt(ip)` (line 49),
the prefix length from the mask (line 27) and the address width `maxBits` (lines 20-25). -/
def readBack (s : String) : Option (Nat × Int × Int) :=
  match ParseCIDR s with
  | none => none
  | some (ip, ipnet) => some (ipToBigInt ip, origPrefixOf ipnet, maxBitsOf ip)

/-- The address `x` lies in the range `[a, a + 2^(maxBits - t))` of the returned text `s`,
where `a` is the address of `s` read back. -/
def inReturnedRange (maxBits t : Int) (s : String) (x : Nat) : Bool :=
  match readBack s with
  | none => false
  | some (a, _, _) => decide (a ≤ x) && decide (x < a + 2 ^ (maxBits - t).toNat)

/-- The address `x` lies in the range of one of the returned texts. -/
def coveredBy (maxBits t : Int) (res : List String) (x : Nat) : Bool :=
  res.any (fun s => inReturnedRange maxBits t s x)

/-! ## The loop of `ChunkCIDR` -/

theorem chunkLoop_eq (count step base : Nat) (maxBits targetPrefix : Int) :
    ∀ (fuel i : Nat) (res : List String), count ≤ i + fuel →
      chunkLoop count step base maxBits targetPrefix fuel i res =
        res ++ (List.range' i (count - i)).map
          (fun j => IPNetString (subBlockAt base step maxBits targetPrefix j)) := by
  intro fuel
  induction fuel with
  | zero =>
    intro i res h
    have h0 : count - i = 0 := by omega
    simp [chunkLoop, h0]
  | succ fuel ih =>
    intro i res h
    by_cases hi : i < count
    · have hs : count - i = (count - (i + 1)) + 1 := by omega
      rw [chunkLoop, if_pos hi, ih (i + 1) _ (by omega), hs, List.range'_succ]
      simp
    · have h0 : count - i = 0 := by omega
      simp [chunkLoop, hi, h0]

/-- The texts returned by a real split are the renderings of the sub-blocks
`base + i * step`, for `i = 0, 1, ..., count - 1` in this order. -/
theorem chunkLoop_full (count step base : Nat) (maxBits targetPrefix : Int) :
    chunkLoop count step base maxBits targetPrefix count 0 [] =
      (List.range count).map
        (fun j => IPNetString (subBlockAt base step maxBits targetPrefix j)) := by
  rw [chunkLoop_eq count step base maxBits targetPrefix count 0 [] (by omega)]
  simp [List.range_eq_range']

/-- The texts `ChunkCIDR` returns are the renderings (`IPNet.String`) of `subBlocks`,
and both fail with the same error. -/
theorem ChunkCIDR_eq_subBlocks (cidr : String) (t : Int) :
    ChunkCIDR cidr t = (subBlocks cidr t).map (List.map IPNetString) := by
  unfold ChunkCIDR subBlocks
  cases hp : ParseCIDR cidr with
  | none => rfl
  | some p =>
    obtain ⟨ip, ipnet⟩ := p
    simp only [chunkParsed, subBlocksParsed]
    split_ifs <;> simp [Except.map, chunkLoop_full]

/-! ## Validation of the target prefix -/

theorem simpleMaskLengthFrom_cases (m : List Nat) :
    ∀ n : Nat, simpleMaskLengthFrom m n = -1 ∨ 0 ≤ simpleMaskLengthFrom m n := by
  induction m with
  | nil => intro n; right; simp [simpleMaskLengthFrom]
  | cons v rest ih =>
    intro n
    rw [simpleMaskLengthFrom]
    by_cases hv : v = 0xff
    · rw [if_pos hv]; exact ih _
    · rw [if_neg hv]
      dsimp only
      by_cases h2 : (leadingOnes 8 n v).2 ≠ 0
      · left; rw [if_pos h2]
      · rw [if_neg h2]
        by_cases h3 : (rest.all fun b => b == 0) = true
        · right; rw [if_pos h3]; exact Int.ofNat_nonneg _
        · left; rw [if_neg h3]

theorem origPrefixOf_nonneg (ipnet : IPNet) : 0 ≤ origPrefixOf ipnet := by
  unfold origPrefixOf IPMaskSize
  by_cases h : simpleMaskLength ipnet.Mask = -1
  · simp [h]
  · rcases simpleMaskLengthFrom_cases ipnet.Mask 0 with h1 | h1
    · exact absurd h1 h
    · simpa [h] using h1

/-- Every outcome of `ChunkCIDR` on a parsed block, by the three validation steps. -/
theorem chunkParsed_cases (ip : IP) (ipnet : IPNet) (t : Int) :
    (t < origPrefixOf ipnet ∧
        chunkParsed ip ipnet t = .error (.prefixSmaller t (origPrefixOf ipnet))) ∨
    (origPrefixOf ipnet ≤ t ∧ maxBitsOf ip < t ∧
        chunkParsed ip ipnet t = .error (.prefixLarger t (maxBitsOf ip))) ∨
    (t = origPrefixOf ipnet ∧ t ≤ maxBitsOf ip ∧
        chunkParsed ip ipnet t = .ok [IPNetString ipnet]) ∨
    (origPrefixOf ipnet < t ∧ t ≤ maxBitsOf ip ∧ 32 < t - origPrefixOf ipnet ∧
        chunkParsed ip ipnet t = .error (.splitTooLarge (t - origPrefixOf ipnet))) ∨
    (origPrefixOf ipnet < t ∧ t ≤ maxBitsOf ip ∧ t - origPrefixOf ipnet ≤ 32 ∧
        chunkParsed ip ipnet t = .ok ((List.range (2 ^ (t - origPrefixOf ipnet).toNat)).map
          (fun j => IPNetString (subBlockAt (ipToBigInt ip)
            (2 ^ (maxBitsOf ip - t).toNat) (maxBitsOf ip) t j)))) := by
  unfold chunkParsed
  simp only [← origPrefixOf.eq_1, ← maxBitsOf.eq_1, chunkLoop_full]
  by_cases h1 : t < origPrefixOf ipnet
  · left; simp [h1]
  · by_cases h2 : t > maxBitsOf ip
    · right; left
      rw [if_neg h1, if_pos h2]
      exact ⟨by omega, h2, rfl⟩
    · by_cases h3 : t = origPrefixOf ipnet
      · right; right; left
        rw [if_neg h1, if_neg h2, if_pos h3]
        exact ⟨h3, by omega, rfl⟩
      · by_cases h4 : t - origPrefixOf ipnet > 32
        · right; right; right; left
          rw [if_neg h1, if_neg h2, if_neg h3, if_pos h4]
          exact ⟨by omega, by omega, h4, rfl⟩
        · right; right; right; right
          rw [if_neg h1, if_neg h2, if_neg h3, if_neg h4]
          exact ⟨by omega, by omega, by omega, rfl⟩

theorem ChunkCIDR_of_parse {cidr : String} {ip : IP} {ipnet : IPNet}
    (h : ParseCIDR cidr = some (ip, ipnet)) (t : Int) :
    ChunkCIDR cidr t = chunkParsed ip ipnet t := by
  simp [ChunkCIDR, h]

/-! ## Validation of the size -/

/-- The bit test `n & (n-1) == 0` holds of a positive `n` exactly when `n` is a power of two. -/
theorem and_pred_eq_zero_iff (n : Nat) (hn : 0 < n) :
    n &&& (n - 1) = 0 ↔ ∃ k : Nat, n = 2 ^ k := by
  induction n using Nat.strong_induction_on with
  | _ n ih =>
    have hmod : (n &&& (n - 1)) % 2 = 0 := by
      by_contra hc
      have h1 : (n &&& (n - 1)) % 2 = 1 := by omega
      rw [Nat.and_mod_two_eq_one] at h1
      omega
    have hdiv : (n &&& (n - 1)) / 2 = (n / 2) &&& ((n - 1) / 2) := Nat.and_div_two
    have hx : n &&& (n - 1) = 0 ↔ (n / 2) &&& ((n - 1) / 2) = 0 := by
      rw [← hdiv]; omega
    rw [hx]
    rcases Nat.even_or_odd' n with ⟨m, rfl | rfl⟩
    · have hm : 0 < m := by omega
      have e1 : 2 * m / 2 = m := by omega
      have e2 : (2 * m - 1) / 2 = m - 1 := by omega
      rw [e1, e2, ih m (by omega) hm]
      constructor
      · rintro ⟨k, rfl⟩
        exact ⟨k + 1, by ring⟩
      · rintro ⟨k, hk⟩
        cases k with
        | zero => omega
        | succ k => exact ⟨k, by rw [pow_succ] at hk; omega⟩
    · have e1 : (2 * m + 1) / 2 = m := by omega
      have e2 : (2 * m + 1 - 1) / 2 = m := by omega
      rw [e1, e2, Nat.and_self]
      constructor
      · rintro rfl
        exact ⟨0, rfl⟩
      · rintro ⟨k, hk⟩
        cases k with
        | zero => simp at hk; exact hk
        | succ k => rw [pow_succ] at hk; omega

/-- The halving loop computes the exact logarithm of a power of two. -/
theorem log2Loop_pow (k : Nat) :
    ∀ (fuel : Nat) (log : Int), k ≤ fuel → log2Loop fuel ((2 : Int) ^ k) log = log + k := by
  induction k with
  | zero =>
    intro fuel log _
    cases fuel with
    | zero => simp [log2Loop]
    | succ f => simp [log2Loop]
  | succ k ih =>
    intro fuel log hf
    cases fuel with
    | zero => omega
    | succ f =>
      have hpos : (1 : Int) < 2 ^ (k + 1) := by
        have : (0 : Int) < 2 ^ k := by positivity
        rw [pow_succ]; omega
      have hdiv : (2 : Int) ^ (k + 1) / 2 = 2 ^ k := by
        rw [pow_succ]; exact Int.mul_ediv_cancel _ (by decide)
      rw [log2Loop, if_pos hpos, hdiv, ih f (log + 1) (by omega)]
      push_cast; ring

/-- An integer power of two, seen through the conversions of the bit test. -/
theorem toNat_two_pow (k : Nat) : ((2 : Int) ^ k).toNat = 2 ^ k := by
  have : ((2 : Int) ^ k) = ((2 ^ k : Nat) : Int) := by push_cast; rfl
  rw [this, Int.toNat_natCast]

/-- `ChunkCIDRBySize` on a parsed block and a size `2^k`: the size checks pass, the derived
prefix is `maxBits - k`, and the call is delegated unless that prefix is below the original. -/
theorem ChunkCIDRBySize_pow {cidr : String} {ip : IP} {ipnet : IPNet}
    (h : ParseCIDR cidr = some (ip, ipnet)) (k : Nat) :
    ChunkCIDRBySize cidr ((2 : Int) ^ k) =
      if maxBitsOf ip - k < origPrefixOf ipnet then
        .error (.sizeTooLarge (maxBitsOf ip - k) (origPrefixOf ipnet))
      else ChunkCIDR cidr (maxBitsOf ip - k) := by
  have hpos : ¬ ((2 : Int) ^ k ≤ 0) := by
    have : (0 : Int) < 2 ^ k := by positivity
    omega
  have hsub : (((2 : Int) ^ k) - 1).toNat = 2 ^ k - 1 := by
    have h1 : (1 : Nat) ≤ 2 ^ k := Nat.one_le_two_pow
    have : ((2 : Int) ^ k) - 1 = ((2 ^ k - 1 : Nat) : Int) := by push_cast [h1]; rfl
    rw [this, Int.toNat_natCast]
  have hbit : ¬ (((2 : Int) ^ k).toNat &&& (((2 : Int) ^ k) - 1).toNat ≠ 0) := by
    rw [toNat_two_pow, hsub, not_not]
    exact (and_pred_eq_zero_iff _ (by positivity)).2 ⟨k, rfl⟩
  have hlog : log2Loop ((2 : Int) ^ k).toNat ((2 : Int) ^ k) 0 = k := by
    rw [log2Loop_pow k _ 0 (by rw [toNat_two_pow]; exact (Nat.lt_two_pow k).le)]
    simp
  unfold ChunkCIDRBySize
  rw [if_neg hpos, if_neg hbit]
  simp only [h, hlog, ← origPrefixOf.eq_1, ← maxBitsOf.eq_1]

/-- `ChunkCIDRBySize` on a positive size that is not a power of two. -/
theorem ChunkCIDRBySize_not_pow (cidr : String) (size : Int) (hs : 0 < size)
    (hn : ¬ ∃ k : Nat, size = 2 ^ k) :
    ChunkCIDRBySize cidr size = .error .sizeNotPowerOfTwo := by
  have hsub : (size - 1).toNat = size.toNat - 1 := by omega
  have hbit : size.toNat &&& (size - 1).toNat ≠ 0 := by
    rw [hsub]
    intro h0
    obtain ⟨k, hk⟩ := (and_pred_eq_zero_iff size.toNat (by omega)).1 h0
    apply hn
    refine ⟨k, ?_⟩
    have : size = ((size.toNat : Nat) : Int) := by omega
    rw [this, hk]; push_cast; rfl
  unfold ChunkCIDRBySize
  rw [if_neg (by omega), if_pos hbit]

/-- After a successful parse, `ChunkCIDR` returns no error of kind `InvalidSize`. -/
theorem ChunkCIDR_not_invalidSize (cidr : String) (t : Int) :
    errKind (ChunkCIDR cidr t) ≠ some ErrorKind.InvalidSize := by
  unfold ChunkCIDR
  cases hp : ParseCIDR cidr with
  | none => simp [errKind, ChunkErr.kind]
  | some p =>
    obtain ⟨ip, ipnet⟩ := p
    rcases chunkParsed_cases ip ipnet t with c | c | c | c | c
    · simp [c.2, errKind, ChunkErr.kind]
    · simp [c.2.2, errKind, ChunkErr.kind]
    · simp [c.2.2, errKind]
    · simp [c.2.2.2, errKind, ChunkErr.kind]
    · simp [c.2.2.2, errKind]

/-! ## Masks: `CIDRMask` and `simpleMaskLength` -/

theorem cidrMaskLoop_length : ∀ (l n : Nat), (cidrMaskLoop l n).length = l := by
  intro l
  induction l with
  | zero => intro n; rfl
  | succ l ih =>
    intro n
    rw [cidrMaskLoop]
    split_ifs <;> simp [ih]

theorem cidrMaskLoop_zero_all (l : Nat) :
    (cidrMaskLoop l 0).all (fun b => b == 0) = true := by
  induction l with
  | zero => rfl
  | succ l ih =>
    rw [cidrMaskLoop, if_neg (by omega)]
    simpa using ih

theorem leadingOnes_acc : ∀ (fuel acc v : Nat),
    leadingOnes fuel acc v = ((leadingOnes fuel 0 v).1 + acc, (leadingOnes fuel 0 v).2) := by
  intro fuel
  induction fuel with
  | zero => intro acc v; simp [leadingOnes]
  | succ f ih =>
    intro acc v
    rw [leadingOnes, leadingOnes]
    by_cases hv : v / 0x80 % 2 ≠ 0
    · rw [if_pos hv, if_pos hv, ih (acc + 1), ih (0 + 1)]
      simp only [Prod.mk.injEq, and_true]
      omega
    · rw [if_neg hv, if_neg hv]
      simp

theorem leadingOnes_partial_mask :
    ∀ n : Fin 8, leadingOnes 8 0 (0xff - 0xff / 2 ^ n.val) = (n.val, 0) := by
  decide

theorem simpleMaskLengthFrom_cidrMaskLoop : ∀ (l n acc : Nat), n ≤ 8 * l →
    simpleMaskLengthFrom (cidrMaskLoop l n) acc = ((acc + n : Nat) : Int) := by
  intro l
  induction l with
  | zero =>
    intro n acc hn
    have : n = 0 := by omega
    subst this
    simp [cidrMaskLoop, simpleMaskLengthFrom]
  | succ l ih =>
    intro n acc hn
    rw [cidrMaskLoop]
    by_cases h8 : n ≥ 8
    · rw [if_pos h8, simpleMaskLengthFrom, if_pos rfl, ih (n - 8) (acc + 8) (by omega)]
      congr 1
      omega
    · rw [if_neg h8, simpleMaskLengthFrom]
      have hlt : n < 8 := by omega
      have hne : ¬ (0xff - 0xff / 2 ^ n = 0xff) := by
        have : 0 < 0xff / 2 ^ n := by
          interval_cases n <;> decide
        omega
      have hl := leadingOnes_partial_mask ⟨n, hlt⟩
      simp only at hl
      rw [if_neg hne]
      simp only [leadingOnes_acc 8 acc, hl, cidrMaskLoop_zero_all]
      simp
      omega

/-- The prefix length read off a mask built by `CIDRMask` is the number of ones asked for. -/
theorem IPMaskSize_CIDRMask (t bits : Int) (hb : bits = 32 ∨ bits = 128)
    (h0 : 0 ≤ t) (h1 : t ≤ bits) : (IPMaskSize (CIDRMask t bits)).1 = t := by
  have hl : t.toNat ≤ 8 * (bits.toNat / 8) := by
    rcases hb with rfl | rfl <;> omega
  have hm : CIDRMask t bits = cidrMaskLoop (bits.toNat / 8) t.toNat := by
    unfold CIDRMask
    rw [if_neg (by rcases hb with rfl | rfl <;> omega), if_neg (by omega)]
  have hs : simpleMaskLength (CIDRMask t bits) = t := by
    rw [hm, simpleMaskLength, simpleMaskLengthFrom_cidrMaskLoop _ _ 0 hl]
    simp only [Nat.zero_add]
    omega
  unfold IPMaskSize
  simp only [hs]
  rw [if_neg (by omega)]

theorem maxBitsOf_cases (ip : IP) : maxBitsOf ip = 32 ∨ maxBitsOf ip = 128 := by
  unfold maxBitsOf
  split_ifs
  · left; rfl
  · right; rfl

/-! ## The sub-blocks of a successful split -/

/-- When `ChunkCIDR` succeeds on a parsed block, the target prefix passed the three checks and
the returned texts render either the parsed network (identity case) or the networks
`base + i * step`, `i < 2^(t-o)`, with mask `CIDRMask(t, maxBits)`. -/
theorem subBlocks_of_ok {cidr : String} {ip : IP} {ipnet : IPNet} {t : Int}
    {res : List String} (h : ParseCIDR cidr = some (ip, ipnet))
    (hr : ChunkCIDR cidr t = .ok res) :
    origPrefixOf ipnet ≤ t ∧ t ≤ maxBitsOf ip ∧ t - origPrefixOf ipnet ≤ 32 ∧
    ∃ nets, subBlocks cidr t = .ok nets ∧ res = nets.map IPNetString ∧
      ((t = origPrefixOf ipnet ∧ nets = [ipnet]) ∨
       (origPrefixOf ipnet < t ∧
        nets = (List.range (2 ^ (t - origPrefixOf ipnet).toNat)).map
          (subBlockAt (ipToBigInt ip) (2 ^ (maxBitsOf ip - t).toNat) (maxBitsOf ip) t))) := by
  rw [ChunkCIDR_of_parse h] at hr
  have hsub : subBlocks cidr t = subBlocksParsed ip ipnet t := by simp [subBlocks, h]
  rw [hsub]
  unfold subBlocksParsed
  simp only [← origPrefixOf.eq_1, ← maxBitsOf.eq_1]
  rcases chunkParsed_cases ip ipnet t with c | c | c | c | c
  · rw [c.2] at hr; cases hr
  · rw [c.2.2] at hr; cases hr
  · obtain ⟨c0, c1, c2⟩ := c
    rw [c2] at hr
    cases hr
    refine ⟨by omega, c1, by omega, [ipnet], ?_, rfl, Or.inl ⟨c0, rfl⟩⟩
    rw [if_neg (by omega), if_neg (by omega), if_pos c0]
  · rw [c.2.2.2] at hr; cases hr
  · obtain ⟨c0, c1, c3, c2⟩ := c
    rw [c2] at hr
    cases hr
    refine ⟨by omega, c1, c3, _, ?_, ?_, Or.inr ⟨c0, rfl⟩⟩
    · rw [if_neg (by omega), if_neg (by omega), if_neg (by omega), if_neg (by omega)]
    · simp

theorem prefixLen_subBlockAt (base step : Nat) (maxBits t : Int) (i : Nat)
    (hb : maxBits = 32 ∨ maxBits = 128) (h0 : 0 ≤ t) (h1 : t ≤ maxBits) :
    prefixLen (subBlockAt base step maxBits t i) = t := by
  simp only [prefixLen, subBlockAt]
  exact IPMaskSize_CIDRMask t maxBits hb h0 h1

/-! ## Big-endian byte slices and `math/big` -/

theorem SetBytes_foldl (l : List Nat) :
    ∀ a : Nat, l.foldl (fun acc x => acc * 256 + x) a = a * 256 ^ l.length + SetBytes l := by
  induction l with
  | nil => intro a; simp [SetBytes]
  | cons x xs ih =>
    intro a
    simp only [List.foldl_cons, SetBytes, List.length_cons]
    rw [ih (a * 256 + x), ih (0 * 256 + x)]
    simp only [SetBytes]
    ring

theorem SetBytes_nil : SetBytes [] = 0 := rfl

theorem SetBytes_cons (x : Nat) (xs : List Nat) :
    SetBytes (x :: xs) = x * 256 ^ xs.length + SetBytes xs := by
  have h := SetBytes_foldl xs (0 * 256 + x)
  simp only [SetBytes, List.foldl_cons] at h ⊢
  rw [h]
  ring

theorem SetBytes_append (xs ys : List Nat) :
    SetBytes (xs ++ ys) = SetBytes xs * 256 ^ ys.length + SetBytes ys := by
  unfold SetBytes
  rw [List.foldl_append, SetBytes_foldl ys]
  rfl

theorem SetBytes_lt (l : List Nat) (h : AllBytes l) : SetBytes l < 256 ^ l.length := by
  induction l with
  | nil => simp [SetBytes]
  | cons x xs ih =>
    have hx : x < 256 := h x (List.mem_cons_self _ _)
    have hxs : AllBytes xs := fun b hb => h b (List.mem_cons_of_mem _ hb)
    have := ih hxs
    rw [SetBytes_cons, List.length_cons, pow_succ]
    nlinarith [Nat.pow_pos (n := xs.length) (show 0 < 256 by decide)]

theorem SetBytes_replicate_zero (n : Nat) : SetBytes (List.replicate n 0) = 0 := by
  induction n with
  | zero => rfl
  | succ n ih => rw [List.replicate_succ, SetBytes_cons, ih]; simp

theorem AllBytes_append {xs ys : List Nat} (hx : AllBytes xs) (hy : AllBytes ys) :
    AllBytes (xs ++ ys) := by
  intro b hb
  rcases List.mem_append.1 hb with h | h
  · exact hx b h
  · exact hy b h

theorem AllBytes_replicate_zero (n : Nat) : AllBytes (List.replicate n 0) := by
  intro b hb
  rw [List.eq_of_mem_replicate hb]
  decide

theorem bytesLoop_spec : ∀ (fuel n : Nat) (acc : List Nat), n ≤ fuel →
    SetBytes (bytesLoop fuel n acc) = n * 256 ^ acc.length + SetBytes acc := by
  intro fuel
  induction fuel with
  | zero =>
    intro n acc hn
    have : n = 0 := by omega
    subst this
    simp [bytesLoop]
  | succ f ih =>
    intro n acc hn
    rw [bytesLoop]
    by_cases h0 : n = 0
    · simp [h0]
    · rw [if_neg h0, ih (n / 256) _ (by omega), SetBytes_cons, List.length_cons, pow_succ]
      have := Nat.div_add_mod n 256
      nlinarith [Nat.pow_pos (n := acc.length) (show 0 < 256 by decide)]

theorem bytesLoop_allBytes : ∀ (fuel n : Nat) (acc : List Nat), AllBytes acc →
    AllBytes (bytesLoop fuel n acc) := by
  intro fuel
  induction fuel with
  | zero => intro n acc h; simpa [bytesLoop] using h
  | succ f ih =>
    intro n acc h
    rw [bytesLoop]
    by_cases h0 : n = 0
    · simpa [h0] using h
    · rw [if_neg h0]
      apply ih
      intro b hb
      rcases List.mem_cons.1 hb with rfl | hb
      · omega
      · exact h b hb

/-- The bytes of `(*big.Int).Bytes` encode the number they come from. -/
theorem SetBytes_Bytes (n : Nat) : SetBytes (Bytes n) = n := by
  unfold Bytes
  rw [bytesLoop_spec n n [] (le_refl n)]
  simp [SetBytes]

theorem Bytes_allBytes (n : Nat) : AllBytes (Bytes n) :=
  bytesLoop_allBytes n n [] (fun _ hb => by cases hb)

theorem fitBytes_length (k : Nat) (b : List Nat) : (fitBytes k b).length = k := by
  unfold fitBytes
  split_ifs with h1 h2
  · simp; omega
  · simp; omega
  · omega

theorem fitBytes_allBytes (k : Nat) (b : List Nat) (hb : AllBytes b) :
    AllBytes (fitBytes k b) := by
  unfold fitBytes
  split_ifs with h1 h2
  · exact AllBytes_append (AllBytes_replicate_zero _) hb
  · intro x hx
    exact hb x (List.mem_of_mem_drop hx)
  · exact hb

/-- Padding keeps the value; truncation keeps it modulo `256^byteLen`. -/
theorem SetBytes_fitBytes (k : Nat) (b : List Nat) (hb : AllBytes b) :
    SetBytes (fitBytes k b) = SetBytes b % 256 ^ k := by
  have hlt := SetBytes_lt b hb
  unfold fitBytes
  split_ifs with h1 h2
  · rw [SetBytes_append, SetBytes_replicate_zero, Nat.zero_mul, Nat.zero_add]
    symm
    apply Nat.mod_eq_of_lt
    exact lt_of_lt_of_le hlt (Nat.pow_le_pow_right (by decide) (by omega))
  · have hsplit : b = b.take (b.length - k) ++ b.drop (b.length - k) :=
      (List.take_append_drop _ _).symm
    have hdl : (b.drop (b.length - k)).length = k := by simp; omega
    have hd : SetBytes (b.drop (b.length - k)) < 256 ^ k := by
      have := SetBytes_lt (b.drop (b.length - k))
        (fun x hx => hb x (List.mem_of_mem_drop hx))
      rwa [hdl] at this
    conv_rhs => rw [hsplit, SetBytes_append, hdl]
    rw [Nat.mul_add_mod_of_lt hd]
  · have : b.length = k := by omega
    rw [this] at hlt
    exact (Nat.mod_eq_of_lt hlt).symm

theorem getD_four (b : List Nat) (h : b.length = 4) :
    [b.getD 0 0, b.getD 1 0, b.getD 2 0, b.getD 3 0] = b := by
  match b, h with
  | [_, _, _, _], _ => rfl

theorem To4_IPv4 (b : List Nat) (h : b.length = 4) :
    To4 (IPv4 (b.getD 0 0) (b.getD 1 0) (b.getD 2 0) (b.getD 3 0)) = b := by
  match b, h with
  | [_, _, _, _], _ => rfl

theorem bigIntToIP_eq (i : Nat) (maxBits : Int) :
    bigIntToIP i maxBits =
      if maxBits = 32 then
        IPv4 ((fitBytes 4 (Bytes i)).getD 0 0) ((fitBytes 4 (Bytes i)).getD 1 0)
          ((fitBytes 4 (Bytes i)).getD 2 0) ((fitBytes 4 (Bytes i)).getD 3 0)
      else fitBytes 16 (Bytes i) := by
  unfold bigIntToIP fitBytes
  by_cases h : maxBits = 32
  · simp [h]
  · simp [h]

/-- The address `bigIntToIP` builds, read over the address width, is the number it was given
modulo `2^maxBits`. -/
theorem addrValue_bigIntToIP (i : Nat) (maxBits : Int) (hb : maxBits = 32 ∨ maxBits = 128) :
    addrValue maxBits (bigIntToIP i maxBits) = i % 2 ^ maxBits.toNat := by
  rw [bigIntToIP_eq]
  rcases hb with rfl | rfl
  · rw [if_pos rfl, addrValue, if_pos rfl, To4_IPv4 _ (fitBytes_length 4 _),
      SetBytes_fitBytes _ _ (Bytes_allBytes i), SetBytes_Bytes]
    rfl
  · rw [if_neg (by decide), addrValue, if_neg (by decide)]
    have hl := fitBytes_length 16 (Bytes i)
    have h16 : To16 (fitBytes 16 (Bytes i)) = fitBytes 16 (Bytes i) := by
      unfold To16
      rw [if_neg (by rw [hl]; decide), if_pos (by rw [hl]; rfl)]
    rw [h16, SetBytes_fitBytes _ _ (Bytes_allBytes i), SetBytes_Bytes]
    rfl

/-! ## What `net.ParseCIDR` returns -/

theorem AllBytes_set {l : List Nat} (h : AllBytes l) (i v : Nat) (hv : v < 256) :
    AllBytes (l.set i v) := by
  intro b hb
  rcases List.mem_or_eq_of_mem_set hb with h1 | h1
  · exact h b h1
  · omega

theorem AllBytes_getD {l : List Nat} (h : AllBytes l) (i : Nat) : l.getD i 0 < 256 := by
  by_cases hi : i < l.length
  · rw [List.getD_eq_getElem _ _ hi]
    exact h _ (List.getElem_mem hi)
  · rw [List.getD_eq_default _ _ (by omega)]
    decide

theorem parseIPv4FieldsLoop_inv : ∀ (s : List Char) (prev : Option Char)
    (val pos digLen : Nat) (fields : List Nat) (r : Nat × Nat × List Nat),
    parseIPv4FieldsLoop s prev val pos digLen fields = some r →
    fields.length = 4 → AllBytes fields → r.2.2.length = 4 ∧ AllBytes r.2.2 := by
  intro s
  induction s with
  | nil =>
    intro prev val pos digLen fields r h hl hb
    simp only [parseIPv4FieldsLoop, Option.some.injEq] at h
    subst h
    exact ⟨hl, hb⟩
  | cons c rest ih =>
    intro prev val pos digLen fields r h hl hb
    rw [parseIPv4FieldsLoop] at h
    dsimp only at h
    split_ifs at h
    · exact ih _ _ _ _ _ r h hl hb
    · exact ih _ _ _ _ _ r h (by simpa using hl)
        (AllBytes_set hb _ _ (Nat.mod_lt _ (by decide)))

theorem parseIPv4Fields_inv (s : List Char) (fields f : List Nat)
    (h : parseIPv4Fields s fields = some f) (hl : fields.length = 4) (hb : AllBytes fields) :
    f.length = 4 ∧ AllBytes f := by
  unfold parseIPv4Fields at h
  cases hr : parseIPv4FieldsLoop s none 0 0 0 fields with
  | none => rw [hr] at h; cases h
  | some r =>
    obtain ⟨val, pos, fs⟩ := r
    rw [hr] at h
    have hi := parseIPv4FieldsLoop_inv s none 0 0 0 fields _ hr hl hb
    simp only at h
    split_ifs at h
    simp only [Option.some.injEq] at h
    subst h
    exact ⟨by simpa using hi.1, AllBytes_set hi.2 _ _ (Nat.mod_lt _ (by decide))⟩

theorem set4_inv (ip f : List Nat) (i : Nat) (hl : ip.length = 16) (hb : AllBytes ip)
    (hf : AllBytes f) : (set4 ip i f).length = 16 ∧ AllBytes (set4 ip i f) := by
  unfold set4
  refine ⟨by simpa using hl, ?_⟩
  exact AllBytes_set (AllBytes_set (AllBytes_set (AllBytes_set hb _ _ (AllBytes_getD hf 0))
    _ _ (AllBytes_getD hf 1)) _ _ (AllBytes_getD hf 2)) _ _ (AllBytes_getD hf 3)

theorem parseIPv6Loop_inv : ∀ (fuel : Nat) (s : List Char) (i : Nat) (ip : List Nat)
    (e : Option Nat) (r : List Char × Nat × List Nat × Option Nat),
    parseIPv6Loop fuel s i ip e = some r →
    ip.length = 16 → AllBytes ip → r.2.2.1.length = 16 ∧ AllBytes r.2.2.1 := by
  intro fuel
  induction fuel with
  | zero =>
    intro s i ip e r h hl hb
    simp only [parseIPv6Loop, Option.some.injEq] at h
    subst h
    exact ⟨hl, hb⟩
  | succ fuel ih =>
    intro s i ip e r h hl hb
    rw [parseIPv6Loop] at h
    have hset : ∀ acc : Nat, ((ip.set i (acc / 256 % 256)).set (i + 1) (acc % 256)).length = 16
        ∧ AllBytes ((ip.set i (acc / 256 % 256)).set (i + 1) (acc % 256)) := fun acc =>
      ⟨by simpa using hl, AllBytes_set (AllBytes_set hb _ _ (Nat.mod_lt _ (by decide))) _ _
        (Nat.mod_lt _ (by decide))⟩
    split at h
    · split at h
      · cases h
      · rename_i off acc rest hg
        split at h
        · cases h
        · split at h
          · split at h
            · cases h
            · split at h
              · cases h
              · split at h
                · cases h
                · rename_i f hf
                  simp only [Option.some.injEq] at h
                  subst h
                  have hfi := parseIPv4Fields_inv s [0, 0, 0, 0] f hf rfl
                    (by intro b hb4; simp at hb4; omega)
                  exact set4_inv ip f i hl hb hfi.2
          · simp only at h
            split at h
            · simp only [Option.some.injEq] at h
              subst h
              exact hset acc
            · split at h
              · cases h
              · split at h
                · cases h
                · split at h
                  · split at h
                    · cases h
                    · split at h
                      · simp only [Option.some.injEq] at h
                        subst h
                        exact hset acc
                      · exact ih _ _ _ _ r h (hset acc).1 (hset acc).2
                  · exact ih _ _ _ _ r h (hset acc).1 (hset acc).2
    · simp only [Option.some.injEq] at h
      subst h
      exact ⟨hl, hb⟩

theorem expandLoop_inv (n e : Nat) : ∀ (j : Nat) (ip : List Nat),
    ip.length = 16 → AllBytes ip →
    (expandLoop n e j ip).length = 16 ∧ AllBytes (expandLoop n e j ip) := by
  intro j
  induction j with
  | zero => intro ip hl hb; exact ⟨hl, hb⟩
  | succ j ih =>
    intro ip hl hb
    rw [expandLoop]
    split_ifs
    · exact ih _ (by simpa using hl) (AllBytes_set hb _ _ (AllBytes_getD hb j))
    · exact ⟨hl, hb⟩

theorem clearRange_inv (e : Nat) : ∀ (n : Nat) (ip : List Nat),
    ip.length = 16 → AllBytes ip →
    (clearRange e n ip).length = 16 ∧ AllBytes (clearRange e n ip) := by
  intro n
  induction n with
  | zero => intro ip hl hb; exact ⟨hl, hb⟩
  | succ n ih =>
    intro ip hl hb
    rw [clearRange]
    exact ih _ (by simpa using hl) (AllBytes_set hb _ _ (by decide))

theorem parseIPv6Rest_inv (s : List Char) (e : Option Nat) (a : Addr)
    (h : parseIPv6Rest s e = some a) :
    a.bytes.length = 16 ∧ AllBytes a.bytes ∧ a.is4 = false := by
  have hz : (List.replicate 16 0).length = 16 ∧ AllBytes (List.replicate 16 0) :=
    ⟨by simp, AllBytes_replicate_zero 16⟩
  unfold parseIPv6Rest at h
  split at h
  · cases h
  · rename_i s1 i ip e1 hr
    have hi := parseIPv6Loop_inv _ _ _ _ _ _ hr hz.1 hz.2
    simp only at hi
    split_ifs at h
    · split at h
      · cases h
      · rename_i d
        simp only [Option.some.injEq] at h
        subst h
        have h1 := expandLoop_inv (16 - i) d i ip hi.1 hi.2
        have h2 := clearRange_inv d (16 - i) _ h1.1 h1.2
        exact ⟨h2.1, h2.2, rfl⟩
    · simp only [Option.some.injEq] at h
      subst h
      exact ⟨hi.1, hi.2, rfl⟩

theorem parseIPv6_inv (s : List Char) (a : Addr) (h : parseIPv6 s = some a) :
    a.bytes.length = 16 ∧ AllBytes a.bytes ∧ a.is4 = false := by
  unfold parseIPv6 at h
  split_ifs at h
  split at h
  · split_ifs at h
    · simp only [Option.some.injEq] at h
      subst h
      exact ⟨by simp [AddrFrom16], AllBytes_replicate_zero 16, rfl⟩
    · exact parseIPv6Rest_inv _ _ a h
  · exact parseIPv6Rest_inv _ _ a h

theorem parseIPv4_inv (s : List Char) (a : Addr) (h : parseIPv4 s = some a) :
    ∃ f : List Nat, f.length = 4 ∧ AllBytes f ∧ a = ⟨v4InV6Prefix ++ f, true⟩ := by
  unfold parseIPv4 at h
  split at h
  · cases h
  · rename_i f hf
    simp only [Option.some.injEq] at h
    subst h
    have hfi := parseIPv4Fields_inv s [0, 0, 0, 0] f hf rfl
      (by intro b hb4; simp at hb4; omega)
    exact ⟨f, hfi.1, hfi.2, rfl⟩

/-- The two shapes of a parsed address: an IPv4 address `a.b.c.d`, held as the 16 bytes
`::ffff:a.b.c.d`, or 16 bytes read from IPv6 text. -/
theorem ParseAddr_inv (s : List Char) (a : Addr) (h : ParseAddr s = some a) :
    (∃ f : List Nat, f.length = 4 ∧ AllBytes f ∧ a = ⟨v4InV6Prefix ++ f, true⟩) ∨
    (a.bytes.length = 16 ∧ AllBytes a.bytes ∧ a.is4 = false) := by
  unfold ParseAddr at h
  split at h
  · cases h
  · split_ifs at h
    · exact Or.inl (parseIPv4_inv s a h)
    · exact Or.inr (parseIPv6_inv s a h)

/-- The shape of every result of `net.ParseCIDR`: the address as written, 16 bytes, and the
network obtained by masking it with `CIDRMask(n, bits)`, where `bits` is 32 for IPv4 text and
128 for IPv6 text and `n ≤ bits` is the prefix length as written. -/
theorem ParseCIDR_shape (cidr : String) (ip : IP) (ipnet : IPNet)
    (h : ParseCIDR cidr = some (ip, ipnet)) :
    ∃ (n : Nat) (bits : Int),
      ((bits = 32 ∧ ∃ f : List Nat, f.length = 4 ∧ AllBytes f ∧ ip = v4InV6Prefix ++ f) ∨
       (bits = 128 ∧ ip.length = 16 ∧ AllBytes ip)) ∧
      (n : Int) ≤ bits ∧
      ipnet = ⟨IPMaskApply ip (CIDRMask n bits), CIDRMask n bits⟩ := by
  unfold ParseCIDR at h
  simp only at h
  split at h
  · cases h
  · split at h
    · cases h
    · rename_i i _ a ha
      split_ifs at h with hc
      simp only [Option.some.injEq, Prod.mk.injEq] at h
      obtain ⟨rfl, rfl⟩ := h
      push_neg at hc
      refine ⟨_, a.BitLen, ?_, hc.2.2, rfl⟩
      rcases ParseAddr_inv _ a ha with ⟨f, hf1, hf2, rfl⟩ | ⟨h1, h2, h3⟩
      · exact Or.inl ⟨rfl, f, hf1, hf2, rfl⟩
      · refine Or.inr ⟨?_, h1, h2⟩
        simp [Addr.BitLen, h3]

/-! ## Masking an address: `(net.IP).Mask` clears the host bits -/

set_option maxRecDepth 100000 in
theorem land_partial_mask : ∀ (n : Fin 8) (b : Fin 256),
    b.val &&& (0xff - 0xff / 2 ^ n.val) = b.val / 2 ^ (8 - n.val) * 2 ^ (8 - n.val) := by
  decide

theorem SetBytes_zipWith_zero_mask : ∀ (l : Nat) (b : List Nat),
    SetBytes (List.zipWith (fun x y => x &&& y) b (cidrMaskLoop l 0)) = 0 := by
  intro l
  induction l with
  | zero => intro b; simp [cidrMaskLoop, SetBytes]
  | succ l ih =>
    intro b
    rw [cidrMaskLoop, if_neg (by omega)]
    cases b with
    | nil => simp [SetBytes]
    | cons x xs =>
      rw [List.zipWith_cons_cons, SetBytes_cons, ih xs]
      simp

/-- Masking `l` bytes with the mask of `n` leading ones clears the low `8l - n` bits of the
number they encode. -/
theorem SetBytes_mask : ∀ (l n : Nat) (b : List Nat), b.length = l → AllBytes b → n ≤ 8 * l →
    SetBytes (List.zipWith (fun x y => x &&& y) b (cidrMaskLoop l n))
      = SetBytes b / 2 ^ (8 * l - n) * 2 ^ (8 * l - n) := by
  intro l
  induction l with
  | zero =>
    intro n b hl _ _
    have : b = [] := List.length_eq_zero.1 hl
    subst this
    simp [cidrMaskLoop, SetBytes]
  | succ l ih =>
    intro n b hl hb hn
    cases b with
    | nil => simp at hl
    | cons x xs =>
      have hx : x < 256 := hb x (List.mem_cons_self _ _)
      have hxs : AllBytes xs := fun c hc => hb c (List.mem_cons_of_mem _ hc)
      have hxl : xs.length = l := by simpa using hl
      have hV := SetBytes_lt xs hxs
      rw [hxl] at hV
      have h256 : (256 : Nat) ^ l = 2 ^ (8 * l) := by
        rw [pow_mul]; norm_num
      rw [cidrMaskLoop]
      by_cases h8 : n ≥ 8
      · rw [if_pos h8, List.zipWith_cons_cons, SetBytes_cons, SetBytes_cons,
          ih (n - 8) xs hxl hxs (by omega)]
        have hlen : (List.zipWith (fun x y => x &&& y) xs (cidrMaskLoop l (n - 8))).length
            = l := by
          simp [cidrMaskLoop_length, hxl]
        have hand : x &&& 0xff = x :=
          Nat.and_pow_two_sub_one_of_lt_two_pow (n := 8) (by simpa using hx)
        have hk : 8 * l - (n - 8) = 8 * (l + 1) - n := by omega
        rw [hlen, hxl, hand, hk, h256]
        have hsplit : (2 : Nat) ^ (8 * l)
            = 2 ^ (8 * (l + 1) - n) * 2 ^ (8 * l - (8 * (l + 1) - n)) := by
          rw [← pow_add]; congr 1; omega
        set P := 2 ^ (8 * (l + 1) - n) with hP
        set Q := 2 ^ (8 * l - (8 * (l + 1) - n)) with hQ
        have hPpos : 0 < P := by positivity
        rw [hsplit]
        have e1 : (x * (P * Q) + SetBytes xs) / P = x * Q + SetBytes xs / P := by
          have : x * (P * Q) + SetBytes xs = P * (x * Q) + SetBytes xs := by ring
          rw [this, Nat.mul_add_div hPpos]
        rw [e1]
        ring
      · have hlt : n < 8 := by omega
        rw [if_neg h8, List.zipWith_cons_cons, SetBytes_cons, SetBytes_cons,
          SetBytes_zipWith_zero_mask]
        have hlen : (List.zipWith (fun x y => x &&& y) xs (cidrMaskLoop l 0)).length = l := by
          simp [cidrMaskLoop_length, hxl]
        have hb0 := land_partial_mask ⟨n, hlt⟩ ⟨x, hx⟩
        simp only at hb0
        rw [hlen, hxl, hb0, h256, Nat.add_zero]
        have hk : 8 * (l + 1) - n = (8 - n) + 8 * l := by omega
        have hpos : 0 < 2 ^ (8 * l) := by positivity
        have hdiv : (x * 2 ^ (8 * l) + SetBytes xs) / 2 ^ (8 - n + 8 * l) = x / 2 ^ (8 - n) := by
          rw [pow_add, Nat.mul_comm (2 ^ (8 - n)), ← Nat.div_div_eq_div_mul]
          congr 1
          rw [Nat.mul_comm x, Nat.mul_add_div hpos, Nat.div_eq_of_lt (by rwa [← h256])]
          simp
        rw [hk, hdiv, pow_add]
        ring

/-! ## Blocks whose address has all host bits zero -/

theorem To4_prefix_append (f : List Nat) (h : f.length = 4) : To4 (v4InV6Prefix ++ f) = f := by
  match f, h with
  | [_, _, _, _], _ => rfl

theorem To4_of_length_four (f : List Nat) (h : f.length = 4) : To4 f = f := by
  simp [To4, IPv4len, h]

theorem To16_of_length_sixteen (ip : List Nat) (h : ip.length = 16) : To16 ip = ip := by
  simp [To16, IPv4len, IPv6len, h]

theorem To4_ne_nil_sixteen (ip : List Nat) (h : ip.length = 16) (hne : To4 ip ≠ []) :
    ∃ g : List Nat, g.length = 4 ∧ ip = v4InV6Prefix ++ g := by
  match ip, h with
  | [a0, a1, a2, a3, a4, a5, a6, a7, a8, a9, a10, a11, a12, a13, a14, a15], _ =>
    refine ⟨[a12, a13, a14, a15], rfl, ?_⟩
    by_contra hc
    apply hne
    simp only [To4, IPv4len, IPv6len, List.length_cons, List.length_nil]
    rw [if_neg (by decide), if_neg]
    intro hcond
    apply hc
    simp [isZeros] at hcond
    simp [v4InV6Prefix]
    tauto

theorem IPMaskApply_v4 (f m : List Nat) (hf : f.length = 4) (hm : m.length = 4) :
    IPMaskApply (v4InV6Prefix ++ f) m = List.zipWith (fun x y => x &&& y) f m := by
  have h1 : ¬ (m.length = IPv6len ∧ (v4InV6Prefix ++ f).length = IPv4len
      ∧ allFF (m.take 12) = true) := by
    rw [hm]; rintro ⟨h, _⟩; exact absurd h (by decide)
  have h2 : m.length = IPv4len ∧ (v4InV6Prefix ++ f).length = IPv6len
      ∧ (v4InV6Prefix ++ f).take 12 = v4InV6Prefix := by
    refine ⟨hm, by simp [hf, v4InV6Prefix, IPv6len], ?_⟩
    simp [v4InV6Prefix]
  have h3 : (v4InV6Prefix ++ f).drop 12 = f := by simp [v4InV6Prefix]
  unfold IPMaskApply
  rw [if_neg h1]
  dsimp only
  rw [if_pos h2, h3, if_neg (by rw [hf, hm]; simp)]

theorem IPMaskApply_v6 (ip m : List Nat) (hi : ip.length = 16) (hm : m.length = 16) :
    IPMaskApply ip m = List.zipWith (fun x y => x &&& y) ip m := by
  have h1 : ¬ (m.length = IPv6len ∧ ip.length = IPv4len ∧ allFF (m.take 12) = true) := by
    rw [hi]; rintro ⟨_, h, _⟩; exact absurd h (by decide)
  have h2 : ¬ (m.length = IPv4len ∧ ip.length = IPv6len ∧ ip.take 12 = v4InV6Prefix) := by
    rw [hm]; rintro ⟨h, _⟩; exact absurd h (by decide)
  unfold IPMaskApply
  rw [if_neg h1]
  dsimp only
  rw [if_neg h2, if_neg (by rw [hi, hm]; simp)]

theorem IPEqual_v4 (f x : List Nat) (hf : f.length = 4) (hx : x.length = 4)
    (h : IPEqual (v4InV6Prefix ++ f) x = true) : x = f := by
  have hl : (v4InV6Prefix ++ f).length = 16 := by simp [hf, v4InV6Prefix]
  have c1 : ¬ ((v4InV6Prefix ++ f).length = x.length) := by rw [hl, hx]; decide
  have c2 : ¬ ((v4InV6Prefix ++ f).length = IPv4len ∧ x.length = IPv6len) := by
    rw [hl]; rintro ⟨h, _⟩; exact absurd h (by decide)
  have c3 : (v4InV6Prefix ++ f).length = IPv6len ∧ x.length = IPv4len := ⟨hl, hx⟩
  unfold IPEqual at h
  rw [if_neg c1, if_neg c2, if_pos c3] at h
  simp [v4InV6Prefix] at h
  exact h.symm

theorem IPEqual_same_length (ip x : List Nat) (hl : ip.length = x.length)
    (h : IPEqual ip x = true) : x = ip := by
  unfold IPEqual at h
  rw [if_pos hl] at h
  have : ip = x := by simpa using h
  exact this.symm

theorem CIDRMask_eq_loop (n : Nat) (bits : Int) (hb : bits = 32 ∨ bits = 128)
    (hn : (n : Int) ≤ bits) : CIDRMask n bits = cidrMaskLoop (bits.toNat / 8) n := by
  unfold CIDRMask
  rw [if_neg (by rcases hb with rfl | rfl <;> omega), if_neg (by omega)]
  simp

theorem mod_eq_zero_of_eq_div_mul {v p : Nat} (h : v = v / p * p) : v % p = 0 := by
  have := Nat.div_add_mod v p
  have h2 : p * (v / p) = v / p * p := Nat.mul_comm _ _
  omega

/-- For a parsed block whose address has all host bits zero and whose prefix fits the width
the code selects: the network address is the address as written, it is a multiple of the block
size `2^(maxBits - o)`, and it is below `2^maxBits`. -/
theorem aligned_facts {cidr : String} {ip : IP} {ipnet : IPNet}
    (h : ParseCIDR cidr = some (ip, ipnet)) (hz : hostBitsZero ip ipnet)
    (hw : origPrefixOf ipnet ≤ maxBitsOf ip) :
    addrValue (maxBitsOf ip) ipnet.IP = ipToBigInt ip ∧
    ipToBigInt ip % 2 ^ (maxBitsOf ip - origPrefixOf ipnet).toNat = 0 ∧
    ipToBigInt ip < 2 ^ (maxBitsOf ip).toNat := by
  obtain ⟨n, bits, hshape, hn, rfl⟩ := ParseCIDR_shape cidr ip ipnet h
  have hbits : bits = 32 ∨ bits = 128 := by
    rcases hshape with ⟨hb, _⟩ | ⟨hb, _⟩
    · exact Or.inl hb
    · exact Or.inr hb
  have ho : origPrefixOf ⟨IPMaskApply ip (CIDRMask n bits), CIDRMask n bits⟩ = n :=
    IPMaskSize_CIDRMask n bits hbits (Int.ofNat_nonneg n) hn
  rw [ho] at hw ⊢
  unfold hostBitsZero at hz
  simp only at hz ⊢
  rw [CIDRMask_eq_loop n bits hbits hn] at hz ⊢
  rcases hshape with ⟨rfl, f, hf, hfb, rfl⟩ | ⟨rfl, hl, hb⟩
  · have hm4 : ((32 : Int).toNat / 8) = 4 := by decide
    rw [hm4] at hz ⊢
    have hm : (cidrMaskLoop 4 n).length = 4 := cidrMaskLoop_length _ _
    have h4 : To4 (v4InV6Prefix ++ f) = f := To4_prefix_append f hf
    have hfne : f ≠ [] := by intro h0; rw [h0] at hf; simp at hf
    have hmax : maxBitsOf (v4InV6Prefix ++ f) = 32 := by
      unfold maxBitsOf; rw [h4, if_pos hfne]
    have hbig : ipToBigInt (v4InV6Prefix ++ f) = SetBytes f := by
      unfold ipToBigInt; rw [h4, if_pos hfne]
    rw [IPMaskApply_v4 f _ hf hm] at hz ⊢
    have hzl : (List.zipWith (fun x y => x &&& y) f (cidrMaskLoop 4 n)).length = 4 := by
      rw [List.length_zipWith, hf, hm]; rfl
    have heq := IPEqual_v4 f _ hf hzl hz
    have hval := SetBytes_mask 4 n f hf hfb (by omega)
    rw [heq] at hval
    rw [hmax, hbig, heq]
    refine ⟨?_, ?_, ?_⟩
    · rw [addrValue, if_pos rfl, To4_of_length_four f hf]
    · have : ((32 : Int) - (n : Int)).toNat = 8 * 4 - n := by omega
      rw [this]
      exact mod_eq_zero_of_eq_div_mul hval
    · have := SetBytes_lt f hfb
      rw [hf] at this
      exact this
  · have hm16 : ((128 : Int).toNat / 8) = 16 := by decide
    rw [hm16] at hz ⊢
    have hm : (cidrMaskLoop 16 n).length = 16 := cidrMaskLoop_length _ _
    rw [IPMaskApply_v6 ip _ hl hm] at hz ⊢
    have hzl : ip.length = (List.zipWith (fun x y => x &&& y) ip
        (cidrMaskLoop 16 n)).length := by
      rw [List.length_zipWith, hl, hm]; rfl
    have heq := IPEqual_same_length ip _ hzl hz
    have hval := SetBytes_mask 16 n ip hl hb (by omega)
    rw [heq] at hval
    have hmod : SetBytes ip % 2 ^ (8 * 16 - n) = 0 := mod_eq_zero_of_eq_div_mul hval
    rw [heq]
    by_cases h4 : To4 ip = []
    · have hmax : maxBitsOf ip = 128 := by
        unfold maxBitsOf; rw [if_neg (by simpa using h4)]
      have hbig : ipToBigInt ip = SetBytes ip := by
        unfold ipToBigInt
        rw [if_neg (by simpa using h4), To16_of_length_sixteen ip hl]
        dsimp only
        rw [if_neg (by intro h0; rw [h0] at hl; simp at hl)]
      rw [hmax, hbig]
      refine ⟨?_, ?_, ?_⟩
      · rw [addrValue, if_neg (by decide), To16_of_length_sixteen ip hl]
      · have : ((128 : Int) - (n : Int)).toNat = 8 * 16 - n := by omega
        rw [this]
        exact hmod
      · have := SetBytes_lt ip hb
        rw [hl] at this
        exact this
    · exfalso
      have hmax : maxBitsOf ip = 32 := by
        unfold maxBitsOf; rw [if_pos h4]
      rw [hmax] at hw
      obtain ⟨g, hg, rfl⟩ := To4_ne_nil_sixteen ip hl h4
      have hgb : AllBytes g := fun b hbm => hb b (List.mem_append_right _ hbm)
      have hg32 := SetBytes_lt g hgb
      rw [hg] at hg32
      have hv : SetBytes (v4InV6Prefix ++ g) = 65535 * 256 ^ 4 + SetBytes g := by
        rw [SetBytes_append, hg]; rfl
      have hle : 2 ^ 96 ≤ 2 ^ (8 * 16 - n) :=
        Nat.pow_le_pow_right (by decide) (by omega)
      have hlt : SetBytes (v4InV6Prefix ++ g) < 2 ^ (8 * 16 - n) := by
        have : SetBytes (v4InV6Prefix ++ g) < 2 ^ 96 := by
          rw [hv]; norm_num at hg32 ⊢; omega
        omega
      rw [Nat.mod_eq_of_lt hlt, hv] at hmod
      omega

theorem add_block_le {base B M : Nat} (hmod : base % B = 0) (hlt : base < M) (hdvd : B ∣ M) :
    base + B ≤ M := by
  obtain ⟨r, rfl⟩ := hdvd
  obtain ⟨q, rfl⟩ := Nat.dvd_of_mod_eq_zero hmod
  have hq : q < r := lt_of_mul_lt_mul_left hlt (Nat.zero_le B)
  calc B * q + B = B * (q + 1) := by ring
    _ ≤ B * r := Nat.mul_le_mul_left B hq

/-- The addresses of the sub-blocks of a block whose host bits are zero: `base + i * step`
for `i = 0, ..., 2^(t-o) - 1`, in this order, with no wrap-around. -/
theorem subBlock_addresses {cidr : String} {ip : IP} {ipnet : IPNet} {t : Int}
    {res : List String} (h : ParseCIDR cidr = some (ip, ipnet)) (hz : hostBitsZero ip ipnet)
    (hr : ChunkCIDR cidr t = .ok res) :
    ∃ nets, subBlocks cidr t = .ok nets ∧ res = nets.map IPNetString ∧
      nets.map (fun n => addrValue (maxBitsOf ip) n.IP)
        = (List.range (2 ^ (t - origPrefixOf ipnet).toNat)).map
            (fun i => ipToBigInt ip + i * 2 ^ (maxBitsOf ip - t).toNat) := by
  obtain ⟨h1, h2, h3, nets, hn, hres, hcase⟩ := subBlocks_of_ok h hr
  obtain ⟨ha, hmod, hlt⟩ := aligned_facts h hz (by omega)
  refine ⟨nets, hn, hres, ?_⟩
  rcases hcase with ⟨ht, rfl⟩ | ⟨ht, rfl⟩
  · have : (t - origPrefixOf ipnet).toNat = 0 := by omega
    rw [this, pow_zero, show List.range 1 = [0] from rfl]
    simp [ha]
  · rw [List.map_map]
    apply List.map_congr_left
    intro i hi
    rw [List.mem_range] at hi
    simp only [Function.comp, subBlockAt]
    rw [addrValue_bigIntToIP _ _ (maxBitsOf_cases ip)]
    apply Nat.mod_eq_of_lt
    have ho := origPrefixOf_nonneg ipnet
    have hsum : (t - origPrefixOf ipnet).toNat + (maxBitsOf ip - t).toNat
        = (maxBitsOf ip - origPrefixOf ipnet).toNat := by omega
    have hcs : 2 ^ (t - origPrefixOf ipnet).toNat * 2 ^ (maxBitsOf ip - t).toNat
        = 2 ^ (maxBitsOf ip - origPrefixOf ipnet).toNat := by
      rw [← pow_add, hsum]
    have hdvd : 2 ^ (maxBitsOf ip - origPrefixOf ipnet).toNat ∣ 2 ^ (maxBitsOf ip).toNat :=
      pow_dvd_pow 2 (by omega)
    have hle := add_block_le hmod hlt hdvd
    have hstep : 0 < 2 ^ (maxBitsOf ip - t).toNat := by positivity
    have : i * 2 ^ (maxBitsOf ip - t).toNat
        < 2 ^ (t - origPrefixOf ipnet).toNat * 2 ^ (maxBitsOf ip - t).toNat :=
      Nat.mul_lt_mul_of_pos_right hi hstep
    omega

theorem ChunkCIDR_ok_of_valid {cidr : String} {ip : IP} {ipnet : IPNet} {t : Int}
    (h : ParseCIDR cidr = some (ip, ipnet)) (ho : origPrefixOf ipnet ≤ t)
    (hm : t ≤ maxBitsOf ip) (hd : t - origPrefixOf ipnet ≤ 32) :
    ∃ res, ChunkCIDR cidr t = .ok res := by
  rw [ChunkCIDR_of_parse h]
  rcases chunkParsed_cases ip ipnet t with c | c | c | c | c
  · omega
  · omega
  · exact ⟨_, c.2.2⟩
  · omega
  · exact ⟨_, c.2.2.2⟩

/-- Consecutive ranges `[base + i*s, base + (i+1)*s)`, `i < count`, are pairwise disjoint. -/
theorem ranges_disjoint (base s : Nat) {i j : Nat} (hij : i < j) (x : Nat) :
    ¬ ((base + i * s ≤ x ∧ x < base + i * s + s) ∧ (base + j * s ≤ x ∧ x < base + j * s + s)) := by
  rintro ⟨⟨_, h2⟩, ⟨h3, _⟩⟩
  have : (i + 1) * s ≤ j * s := Nat.mul_le_mul_right s hij
  rw [Nat.succ_mul] at this
  omega

/-- Consecutive ranges `[base + i*s, base + (i+1)*s)`, `i < count`, cover exactly
`[base, base + count*s)`. -/
theorem ranges_cover (base s count : Nat) (hs : 0 < s) (x : Nat) :
    (∃ i, i < count ∧ base + i * s ≤ x ∧ x < base + i * s + s) ↔
      (base ≤ x ∧ x < base + count * s) := by
  constructor
  · rintro ⟨i, hi, h1, h2⟩
    have : (i + 1) * s ≤ count * s := Nat.mul_le_mul_right s hi
    rw [Nat.succ_mul] at this
    omega
  · rintro ⟨h1, h2⟩
    refine ⟨(x - base) / s, ?_, ?_, ?_⟩
    · rw [Nat.div_lt_iff_lt_mul hs]; omega
    · have := Nat.div_mul_le_self (x - base) s
      omega
    · have := Nat.lt_mul_div_succ (x - base) hs
      rw [Nat.mul_add, Nat.mul_one, Nat.mul_comm] at this
      omega

/-! ## The conversions `ipToBigInt` and `bigIntToIP` -/

theorem bytesLoop_length : ∀ (fuel n : Nat) (acc : List Nat) (k : Nat), n ≤ fuel →
    n < 256 ^ k → (bytesLoop fuel n acc).length ≤ k + acc.length := by
  intro fuel
  induction fuel with
  | zero =>
    intro n acc k hn _
    have : n = 0 := by omega
    subst this
    simp [bytesLoop]
  | succ f ih =>
    intro n acc k hn hk
    rw [bytesLoop]
    by_cases h0 : n = 0
    · simp [h0]
    · rw [if_neg h0]
      cases k with
      | zero => simp at hk; omega
      | succ k =>
        have hdiv : n / 256 < 256 ^ k := by
          rw [Nat.div_lt_iff_lt_mul (by decide)]
          rw [pow_succ] at hk
          exact hk
        have := ih (n / 256) (n % 256 :: acc) k (by omega) hdiv
        simp only [List.length_cons] at this
        omega

/-- The minimal encoding of a number below `256^k` has at most `k` bytes. -/
theorem Bytes_length_le (n k : Nat) (h : n < 256 ^ k) : (Bytes n).length ≤ k := by
  have := bytesLoop_length n n [] k (le_refl n) h
  simpa [Bytes] using this

/-- Below `256^k` the step of `bigIntToIP` that fits the bytes to `k` bytes only pads. -/
theorem fitBytes_of_lt (n k : Nat) (h : n < 256 ^ k) :
    fitBytes k (Bytes n) = List.replicate (k - (Bytes n).length) 0 ++ Bytes n := by
  have hl := Bytes_length_le n k h
  unfold fitBytes
  by_cases h1 : (Bytes n).length < k
  · rw [if_pos h1]
  · have he : (Bytes n).length = k := by omega
    rw [if_neg h1, if_neg (by omega), he]
    simp

/-- Two byte slices of the same length that encode the same number are equal. -/
theorem SetBytes_injective : ∀ (xs ys : List Nat), xs.length = ys.length →
    AllBytes xs → AllBytes ys → SetBytes xs = SetBytes ys → xs = ys := by
  intro xs
  induction xs with
  | nil =>
    intro ys hl _ _ _
    exact (List.length_eq_zero.1 hl.symm).symm
  | cons x xs ih =>
    intro ys hl hx hy he
    cases ys with
    | nil => simp at hl
    | cons y ys =>
      have hl2 : xs.length = ys.length := by simpa using hl
      have hxs : AllBytes xs := fun c hc => hx c (List.mem_cons_of_mem _ hc)
      have hys : AllBytes ys := fun c hc => hy c (List.mem_cons_of_mem _ hc)
      have hX := SetBytes_lt xs hxs
      have hY := SetBytes_lt ys hys
      rw [SetBytes_cons, SetBytes_cons, hl2] at he
      rw [hl2] at hX
      have hpos : 0 < 256 ^ ys.length := by positivity
      have hxy : x = y := by
        have e1 : (x * 256 ^ ys.length + SetBytes xs) / 256 ^ ys.length = x := by
          rw [Nat.mul_comm, Nat.mul_add_div hpos, Nat.div_eq_of_lt hX]; simp
        have e2 : (y * 256 ^ ys.length + SetBytes ys) / 256 ^ ys.length = y := by
          rw [Nat.mul_comm, Nat.mul_add_div hpos, Nat.div_eq_of_lt hY]; simp
        rw [← e1, ← e2, he]
      subst hxy
      have hrest : SetBytes xs = SetBytes ys := by omega
      rw [ih ys hl2 hxs hys hrest]

theorem ipToBigInt_of_To4_nil (b : List Nat) (hl : b.length = 16) (h4 : To4 b = []) :
    ipToBigInt b = SetBytes b := by
  unfold ipToBigInt
  rw [if_neg (by simpa using h4), To16_of_length_sixteen b hl]
  dsimp only
  rw [if_neg (by intro h0; rw [h0] at hl; simp at hl)]

theorem ipToBigInt_prefix_append (g : List Nat) (hg : g.length = 4) :
    ipToBigInt (v4InV6Prefix ++ g) = SetBytes g := by
  have hne : g ≠ [] := by intro h0; rw [h0] at hg; simp at hg
  unfold ipToBigInt
  rw [To4_prefix_append g hg, if_pos hne]

theorem SetBytes_prefix_append (g : List Nat) (hg : g.length = 4) :
    SetBytes (v4InV6Prefix ++ g) = 0xffff * 2 ^ 32 + SetBytes g := by
  rw [SetBytes_append, hg]
  rfl

/-! ## Supporting facts: no wrap-around and composition on aligned blocks -/

/-- For a parsed block whose host bits are zero, every address the loop computes is below
`2^maxBits` and its encoding fits the address width: `bigIntToIP` never truncates. -/
theorem no_truncation_when_aligned {cidr : String} {ip : IP} {ipnet : IPNet} {t : Int}
    (h : ParseCIDR cidr = some (ip, ipnet)) (hz : hostBitsZero ip ipnet)
    (ho : origPrefixOf ipnet ≤ t) (hm : t ≤ maxBitsOf ip) (i : Nat)
    (hi : i < 2 ^ (t - origPrefixOf ipnet).toNat) :
    ipToBigInt ip + i * 2 ^ (maxBitsOf ip - t).toNat < 2 ^ (maxBitsOf ip).toNat ∧
    (Bytes (ipToBigInt ip + i * 2 ^ (maxBitsOf ip - t).toNat)).length
      ≤ (if maxBitsOf ip = 32 then 4 else 16) := by
  obtain ⟨_, hmod, hlt⟩ := aligned_facts h hz (by omega)
  have hon := origPrefixOf_nonneg ipnet
  have hcs : 2 ^ (t - origPrefixOf ipnet).toNat * 2 ^ (maxBitsOf ip - t).toNat
      = 2 ^ (maxBitsOf ip - origPrefixOf ipnet).toNat := by
    rw [← pow_add]; congr 1; omega
  have hdvd : 2 ^ (maxBitsOf ip - origPrefixOf ipnet).toNat ∣ 2 ^ (maxBitsOf ip).toNat :=
    pow_dvd_pow 2 (by omega)
  have hle := add_block_le hmod hlt hdvd
  have hstep : 0 < 2 ^ (maxBitsOf ip - t).toNat := by positivity
  have hmul : i * 2 ^ (maxBitsOf ip - t).toNat
      < 2 ^ (t - origPrefixOf ipnet).toNat * 2 ^ (maxBitsOf ip - t).toNat :=
    Nat.mul_lt_mul_of_pos_right hi hstep
  have hbound : ipToBigInt ip + i * 2 ^ (maxBitsOf ip - t).toNat
      < 2 ^ (maxBitsOf ip).toNat := by omega
  refine ⟨hbound, ?_⟩
  rcases maxBitsOf_cases ip with h32 | h128
  · rw [h32] at hbound ⊢
    rw [if_pos rfl]
    exact Bytes_length_le _ 4 (by
      have : (2 : Nat) ^ (32 : Int).toNat = 256 ^ 4 := by decide
      rw [← this]; exact hbound)
  · rw [h128] at hbound ⊢
    rw [if_neg (by decide)]
    exact Bytes_length_le _ 16 (by
      have : (2 : Nat) ^ (128 : Int).toNat = 256 ^ 16 := by decide
      rw [← this]; exact hbound)

theorem range_flatMap_block {α : Type} (B : Nat) (f : Nat → α) : ∀ A : Nat,
    (List.range A).flatMap (fun i => (List.range B).map (fun j => f (i * B + j)))
      = (List.range (A * B)).map f := by
  intro A
  induction A with
  | zero => simp
  | succ A ih =>
    rw [List.range_succ, List.flatMap_append, ih, Nat.succ_mul, List.range_add,
      List.map_append]
    simp

/-- On the sub-blocks themselves (before they are rendered as text) splits compose: splitting
to `/p` and then each sub-block `base + i * 2^(maxBits-p)` to `/q` builds, in order, the same
sub-blocks as splitting to `/q` directly. -/
theorem split_compose_subBlocks (base : Nat) (maxBits o p q : Int)
    (hop : o ≤ p) (hpq : p ≤ q) (hq : q ≤ maxBits) :
    (List.range (2 ^ (p - o).toNat)).flatMap
        (fun i => (List.range (2 ^ (q - p).toNat)).map
          (subBlockAt (base + i * 2 ^ (maxBits - p).toNat) (2 ^ (maxBits - q).toNat) maxBits q))
      = (List.range (2 ^ (q - o).toNat)).map
          (subBlockAt base (2 ^ (maxBits - q).toNat) maxBits q) := by
  have hcount : 2 ^ (p - o).toNat * 2 ^ (q - p).toNat = 2 ^ (q - o).toNat := by
    rw [← pow_add]; congr 1; omega
  have hstep : 2 ^ (q - p).toNat * 2 ^ (maxBits - q).toNat = 2 ^ (maxBits - p).toNat := by
    rw [← pow_add]; congr 1; omega
  rw [← hcount, ← range_flatMap_block (2 ^ (q - p).toNat)
    (subBlockAt base (2 ^ (maxBits - q).toNat) maxBits q)]
  apply List.flatMap_congr
  intro i _
  apply List.map_congr_left
  intro j _
  simp only [subBlockAt]
  rw [← hstep]
  congr 2
  ring

/-! ## Properties of the sub-blocks as built, before rendering -/

/-- Partition, on the sub-blocks as built (before they are rendered as text): for every
parsed block whose address has all host bits zero (original prefix `o`, width `maxBits`) and
every target prefix `t` with `o ≤ t ≤ maxBits` and `t - o ≤ 32`, `ChunkCIDR` succeeds, and the
ranges `[a_i, a_i + 2^(maxBits-t))` of the `2^(t-o)` sub-blocks whose texts it returns are
pairwise disjoint and their union is exactly the range `[base, base + 2^(maxBits-o))` of the
original block. It says nothing of how `IPNet.String` renders a sub-block. -/
theorem subBlocks_partition (cidr : String) (ip : IP) (ipnet : IPNet) (t : Int)
    (h : ParseCIDR cidr = some (ip, ipnet)) (hz : hostBitsZero ip ipnet)
    (ho : origPrefixOf ipnet ≤ t) (hm : t ≤ maxBitsOf ip)
    (hd : t - origPrefixOf ipnet ≤ 32) :
    ∃ nets, subBlocks cidr t = .ok nets ∧ ChunkCIDR cidr t = .ok (nets.map IPNetString) ∧
      nets.length = 2 ^ (t - origPrefixOf ipnet).toNat ∧
      List.Pairwise (fun n m => ∀ x,
        ¬ (inSubBlock (maxBitsOf ip) t n x ∧ inSubBlock (maxBitsOf ip) t m x)) nets ∧
      ∀ x, (∃ n ∈ nets, inSubBlock (maxBitsOf ip) t n x) ↔
        (addrValue (maxBitsOf ip) ipnet.IP ≤ x ∧
          x < addrValue (maxBitsOf ip) ipnet.IP
            + 2 ^ (maxBitsOf ip - origPrefixOf ipnet).toNat) := by
  obtain ⟨res, hr⟩ := ChunkCIDR_ok_of_valid h ho hm hd
  obtain ⟨nets, hn, hres, haddr⟩ := subBlock_addresses h hz hr
  obtain ⟨ha, _, _⟩ := aligned_facts h hz (by omega)
  have hstep : 0 < 2 ^ (maxBitsOf ip - t).toNat := by positivity
  have hcs : 2 ^ (t - origPrefixOf ipnet).toNat * 2 ^ (maxBitsOf ip - t).toNat
      = 2 ^ (maxBitsOf ip - origPrefixOf ipnet).toNat := by
    rw [← pow_add]; congr 1; omega
  refine ⟨nets, hn, by rw [hr, hres], ?_, ?_, ?_⟩
  · have := congrArg List.length haddr
    simpa using this
  · have hp : List.Pairwise (fun a b => ∀ x,
        ¬ ((a ≤ x ∧ x < a + 2 ^ (maxBitsOf ip - t).toNat)
          ∧ (b ≤ x ∧ x < b + 2 ^ (maxBitsOf ip - t).toNat)))
        (nets.map (fun n => addrValue (maxBitsOf ip) n.IP)) := by
      rw [haddr, List.pairwise_map]
      exact List.Pairwise.imp (fun hij x => ranges_disjoint _ _ hij x)
        (List.pairwise_lt_range _)
    rw [List.pairwise_map] at hp
    exact hp
  · intro x
    rw [ha, ← hcs, ← ranges_cover (ipToBigInt ip) _ _ hstep x]
    constructor
    · rintro ⟨n, hmem, hin⟩
      have hmem2 : addrValue (maxBitsOf ip) n.IP
          ∈ nets.map (fun n => addrValue (maxBitsOf ip) n.IP) := List.mem_map_of_mem _ hmem
      rw [haddr, List.mem_map] at hmem2
      obtain ⟨i, hi, hie⟩ := hmem2
      rw [List.mem_range] at hi
      unfold inSubBlock at hin
      rw [← hie] at hin
      exact ⟨i, hi, hin⟩
    · rintro ⟨i, hi, hin⟩
      have hmem2 : ipToBigInt ip + i * 2 ^ (maxBitsOf ip - t).toNat
          ∈ nets.map (fun n => addrValue (maxBitsOf ip) n.IP) := by
        rw [haddr]
        exact List.mem_map.2 ⟨i, List.mem_range.2 hi, rfl⟩
      rw [List.mem_map] at hmem2
      obtain ⟨n, hmem, hne⟩ := hmem2
      refine ⟨n, hmem, ?_⟩
      unfold inSubBlock
      rw [hne]
      exact hin

/-- The partition of the sub-blocks as built, on the specification's scenario 5:
`2001:db8::/32` split to `/34`. -/
theorem subBlocks_partition_example :
    ParseCIDR "2001:db8::/32"
        = some ([32, 1, 13, 184, 0, 0, 0, 0, 0, 0, 0, 0, 0, 0, 0, 0],
            ⟨[32, 1, 13, 184, 0, 0, 0, 0, 0, 0, 0, 0, 0, 0, 0, 0],
             [255, 255, 255, 255, 0, 0, 0, 0, 0, 0, 0, 0, 0, 0, 0, 0]⟩) ∧
      ∃ nets, subBlocks "2001:db8::/32" 34 = .ok nets ∧
        ChunkCIDR "2001:db8::/32" 34 = .ok (nets.map IPNetString) ∧
        nets.length = 2 ^ 2 ∧
        List.Pairwise (fun n m => ∀ x,
          ¬ (inSubBlock 128 34 n x ∧ inSubBlock 128 34 m x)) nets ∧
        ∀ x, (∃ n ∈ nets, inSubBlock 128 34 n x) ↔
          (0x20010db8 * 2 ^ 96 ≤ x ∧ x < 0x20010db8 * 2 ^ 96 + 2 ^ 96) :=
  ⟨rfl, subBlocks_partition "2001:db8::/32" [32, 1, 13, 184, 0, 0, 0, 0, 0, 0, 0, 0, 0, 0, 0, 0]
    ⟨[32, 1, 13, 184, 0, 0, 0, 0, 0, 0, 0, 0, 0, 0, 0, 0],
     [255, 255, 255, 255, 0, 0, 0, 0, 0, 0, 0, 0, 0, 0, 0, 0]⟩ 34 rfl (by decide)
    (by decide) (by decide) (by decide)⟩

/-- Ordering, on the sub-blocks as built (before they are rendered as text): for every
parsed block whose address has all host bits zero and every target prefix accepted by
`ChunkCIDR`, the addresses of the sub-blocks whose texts are returned, read as unsigned
integers of the address width, are strictly ascending in list order. It says nothing of how
`IPNet.String` renders a sub-block. -/
theorem subBlocks_ascending (cidr : String) (ip : IP) (ipnet : IPNet) (t : Int)
    (res : List String) (h : ParseCIDR cidr = some (ip, ipnet)) (hz : hostBitsZero ip ipnet)
    (hr : ChunkCIDR cidr t = .ok res) :
    ∃ nets, subBlocks cidr t = .ok nets ∧ res = nets.map IPNetString ∧
      List.Chain' (fun a b => a < b) (nets.map (fun n => addrValue (maxBitsOf ip) n.IP)) ∧
      List.Pairwise (fun a b => a < b) (nets.map (fun n => addrValue (maxBitsOf ip) n.IP)) := by
  obtain ⟨nets, hn, hres, haddr⟩ := subBlock_addresses h hz hr
  have hstep : 0 < 2 ^ (maxBitsOf ip - t).toNat := by positivity
  have hp : List.Pairwise (fun a b => a < b)
      (nets.map (fun n => addrValue (maxBitsOf ip) n.IP)) := by
    rw [haddr, List.pairwise_map]
    refine List.Pairwise.imp ?_ (List.pairwise_lt_range _)
    intro i j hij
    have : i * 2 ^ (maxBitsOf ip - t).toNat < j * 2 ^ (maxBitsOf ip - t).toNat :=
      Nat.mul_lt_mul_of_pos_right hij hstep
    omega
  exact ⟨nets, hn, hres, hp.chain', hp⟩

/-- The ordering of the sub-blocks as built, on the input of `TestChunkCIDRIPv4`: the four
`/26` sub-blocks of `192.168.0.0/24`. -/
theorem subBlocks_ascending_example :
    ParseCIDR "192.168.0.0/24"
        = some (IPv4 192 168 0 0, ⟨[192, 168, 0, 0], [255, 255, 255, 0]⟩) ∧
      ∃ nets, subBlocks "192.168.0.0/24" 26 = .ok nets ∧
        ["192.168.0.0/26", "192.168.0.64/26", "192.168.0.128/26", "192.168.0.192/26"]
          = nets.map IPNetString ∧
        List.Chain' (fun a b => a < b) (nets.map (fun n => addrValue 32 n.IP)) ∧
        List.Pairwise (fun a b => a < b) (nets.map (fun n => addrValue 32 n.IP)) :=
  ⟨rfl, subBlocks_ascending "192.168.0.0/24" (IPv4 192 168 0 0)
    ⟨[192, 168, 0, 0], [255, 255, 255, 0]⟩ 26
    ["192.168.0.0/26", "192.168.0.64/26", "192.168.0.128/26", "192.168.0.192/26"]
    rfl (by decide) rfl⟩

/-- Block size, on the sub-blocks as built (before they are rendered as text): for every
parsed block and every size for which `ChunkCIDRBySize` succeeds, the size is a power of two
`2^k`, every sub-block built has a mask of prefix length `P` with `2^(maxBits - P) = size`
(the halving loop computed the exact logarithm), and the number of returned texts is
`2^(maxBits - originalPrefix) / size`. It says nothing of how `IPNet.String` renders a
sub-block. -/
theorem subBlocks_block_size (cidr : String) (ip : IP) (ipnet : IPNet) (size : Int)
    (res : List String) (h : ParseCIDR cidr = some (ip, ipnet))
    (hr : ChunkCIDRBySize cidr size = .ok res) :
    ∃ (k : Nat) (nets : List IPNet), size = 2 ^ k ∧
      subBlocks cidr (maxBitsOf ip - k) = .ok nets ∧ res = nets.map IPNetString ∧
      (∀ n ∈ nets, (2 : Int) ^ (maxBitsOf ip - prefixLen n).toNat = size) ∧
      res.length = 2 ^ (maxBitsOf ip - origPrefixOf ipnet).toNat / size.toNat := by
  have hs : 0 < size := by
    by_contra hc
    unfold ChunkCIDRBySize at hr
    rw [if_pos (by omega)] at hr
    cases hr
  have hp : ∃ k : Nat, size = 2 ^ k := by
    by_contra hc
    rw [ChunkCIDRBySize_not_pow cidr size hs hc] at hr
    cases hr
  obtain ⟨k, rfl⟩ := hp
  rw [ChunkCIDRBySize_pow h k] at hr
  by_cases hlt : maxBitsOf ip - k < origPrefixOf ipnet
  · rw [if_pos hlt] at hr; cases hr
  · rw [if_neg hlt] at hr
    obtain ⟨h1, h2, h3, nets, hn, hres, hcase⟩ := subBlocks_of_ok h hr
    have ho := origPrefixOf_nonneg ipnet
    have hk0 : (0 : Int) ≤ k := Int.ofNat_nonneg k
    have hexp : (maxBitsOf ip - (maxBitsOf ip - (k : Int))).toNat = k := by omega
    refine ⟨k, nets, rfl, hn, hres, ?_, ?_⟩
    · intro n hmem
      rcases hcase with ⟨ht, rfl⟩ | ⟨ht, rfl⟩
      · simp only [List.mem_singleton] at hmem
        have : prefixLen n = maxBitsOf ip - k := by
          rw [hmem, ht]; rfl
        rw [this, hexp]
      · simp only [List.mem_map, List.mem_range] at hmem
        obtain ⟨i, _, rfl⟩ := hmem
        rw [prefixLen_subBlockAt _ _ _ _ _ (maxBitsOf_cases ip) (by omega) h2, hexp]
    · rw [hres, List.length_map, toNat_two_pow]
      have hsum : (maxBitsOf ip - origPrefixOf ipnet).toNat
          = (maxBitsOf ip - k - origPrefixOf ipnet).toNat + k := by omega
      rw [hsum, pow_add, Nat.mul_div_cancel _ (by positivity)]
      rcases hcase with ⟨ht, rfl⟩ | ⟨ht, rfl⟩
      · rw [ht]; simp
      · simp

/-- The block size of the sub-blocks as built, on the specification's scenario 4: the split
of `192.168.0.0/24` by size 64. -/
theorem subBlocks_block_size_example :
    ∃ (k : Nat) (nets : List IPNet), (64 : Int) = 2 ^ k ∧
      subBlocks "192.168.0.0/24" (maxBitsOf (IPv4 192 168 0 0) - k) = .ok nets ∧
      ["192.168.0.0/26", "192.168.0.64/26", "192.168.0.128/26", "192.168.0.192/26"]
        = nets.map IPNetString ∧
      (∀ n ∈ nets, (2 : Int) ^ (maxBitsOf (IPv4 192 168 0 0) - prefixLen n).toNat = 64) ∧
      ["192.168.0.0/26", "192.168.0.64/26", "192.168.0.128/26", "192.168.0.192/26"].length
        = 2 ^ (maxBitsOf (IPv4 192 168 0 0)
            - origPrefixOf ⟨[192, 168, 0, 0], [255, 255, 255, 0]⟩).toNat / (64 : Int).toNat :=
  subBlocks_block_size "192.168.0.0/24" (IPv4 192 168 0 0) ⟨[192, 168, 0, 0], [255, 255, 255, 0]⟩
    64 ["192.168.0.0/26", "192.168.0.64/26", "192.168.0.128/26", "192.168.0.192/26"] rfl rfl

/-! ## Claims -/

/-- C1 (the code at a failing input): `::fffe:0:0/95` is a block whose host bits are zero,
of original prefix 95 and width 128, and target prefix 96 passes the validation. The texts
`ChunkCIDR` returns are `::fffe:0:0/96` and `0.0.0.0/0`: the second sub-block, built as
`::ffff:0:0/96`, is rendered as IPv4 text, which reads back as the address 0 of width 32.
So the address `::ffff:0:0` of the original block lies in no returned range, and the address
0, outside the original block, lies in one: the returned sub-blocks do not cover exactly the
original range. -/
theorem partition_broken_by_rendering :
    ParseCIDR "::fffe:0:0/95"
        = some ([0, 0, 0, 0, 0, 0, 0, 0, 0, 0, 255, 254, 0, 0, 0, 0],
            ⟨[0, 0, 0, 0, 0, 0, 0, 0, 0, 0, 255, 254, 0, 0, 0, 0],
             [255, 255, 255, 255, 255, 255, 255, 255, 255, 255, 255, 254, 0, 0, 0, 0]⟩) ∧
      hostBitsZero [0, 0, 0, 0, 0, 0, 0, 0, 0, 0, 255, 254, 0, 0, 0, 0]
        ⟨[0, 0, 0, 0, 0, 0, 0, 0, 0, 0, 255, 254, 0, 0, 0, 0],
         [255, 255, 255, 255, 255, 255, 255, 255, 255, 255, 255, 254, 0, 0, 0, 0]⟩ ∧
      readBack "::fffe:0:0/95" = some (0xfffe00000000, 95, 128) ∧
      ChunkCIDR "::fffe:0:0/95" 96 = .ok ["::fffe:0:0/96", "0.0.0.0/0"] ∧
      ["::fffe:0:0/96", "0.0.0.0/0"].map readBack
        = [some (0xfffe00000000, 96, 128), some (0, 0, 32)] ∧
      inReturnedRange 128 95 "::fffe:0:0/95" 0xffff00000000 = true ∧
      coveredBy 128 96 ["::fffe:0:0/96", "0.0.0.0/0"] 0xffff00000000 = false ∧
      inReturnedRange 128 95 "::fffe:0:0/95" 0 = false ∧
      coveredBy 128 96 ["::fffe:0:0/96", "0.0.0.0/0"] 0 = true :=
  ⟨rfl, by decide, rfl, rfl, rfl, rfl, rfl, rfl, rfl⟩

/-- C2 (the code at a failing input): `255.255.255.255/31` parses to the address
`255.255.255.255` and the network `255.255.255.254/31`; splitting it to `/32` starts from the
address as written, not from the network address, so the second address `base + 1` is `2^32`,
which `bigIntToIP` truncates to `0.0.0.0`. The list returned is neither
`[255.255.255.254/32, 255.255.255.255/32]` nor a list of addresses `base + i * step`. -/
theorem split_from_unmasked_address :
    ParseCIDR "255.255.255.255/31"
        = some (IPv4 255 255 255 255, ⟨[255, 255, 255, 254], [255, 255, 255, 254]⟩) ∧
      ipToBigInt (IPv4 255 255 255 255) + 1 * 2 ^ (32 - 32) = 2 ^ 32 ∧
      bigIntToIP (2 ^ 32) 32 = IPv4 0 0 0 0 ∧
      ChunkCIDR "255.255.255.255/31" 32 = .ok ["255.255.255.255/32", "0.0.0.0/32"] :=
  ⟨rfl, rfl, rfl, rfl⟩

/-- The test vector of `TestChunkCIDRIPv4`, a block whose host bits are zero:
`ChunkCIDR("192.168.0.0/24", 26)` is the list of the four `/26` blocks. -/
theorem split_test_vector :
    ChunkCIDR "192.168.0.0/24" 26
      = .ok ["192.168.0.0/26", "192.168.0.64/26", "192.168.0.128/26", "192.168.0.192/26"] :=
  rfl

/-- C3 (as stated, refuted): the text `::ffff:1.2.3.0/120` parses, its original prefix is 120,
and `ChunkCIDR` at target prefix 120 fails: the address is IPv4-mapped, so the code selects
`maxBits = 32` and rejects the block's own prefix as larger than `maxBits`. -/
theorem identity_fails_on_mapped_prefix :
    ∃ ip ipnet, ParseCIDR "::ffff:1.2.3.0/120" = some (ip, ipnet) ∧
      origPrefixOf ipnet = 120 ∧
      ChunkCIDR "::ffff:1.2.3.0/120" (origPrefixOf ipnet) = .error (.prefixLarger 120 32) :=
  ⟨_, _, rfl, rfl, rfl⟩

/-- C3 (amended): for every CIDR text that parses, with original prefix `o` not above the
address width `maxBits` the code selects, `ChunkCIDR(cidr, o)` succeeds and returns exactly
the one-element list holding the canonical text of the parsed network. -/
theorem identity_split (cidr : String) (ip : IP) (ipnet : IPNet)
    (h : ParseCIDR cidr = some (ip, ipnet)) (hw : origPrefixOf ipnet ≤ maxBitsOf ip) :
    ChunkCIDR cidr (origPrefixOf ipnet) = .ok [IPNetString ipnet] := by
  rw [ChunkCIDR_of_parse h]
  rcases chunkParsed_cases ip ipnet (origPrefixOf ipnet) with c | c | c | c | c
  · omega
  · omega
  · exact c.2.2
  · omega
  · omega

/-- C3 (amended), on the input of `TestChunkCIDRSamePrefix`:
`ChunkCIDR("10.0.0.0/8", 8) = ["10.0.0.0/8"]`. -/
theorem identity_split_witness :
    ParseCIDR "10.0.0.0/8" = some (IPv4 10 0 0 0, ⟨[10, 0, 0, 0], [255, 0, 0, 0]⟩) ∧
      ChunkCIDR "10.0.0.0/8" 8 = .ok ["10.0.0.0/8"] :=
  ⟨rfl, identity_split "10.0.0.0/8" (IPv4 10 0 0 0) ⟨[10, 0, 0, 0], [255, 0, 0, 0]⟩ rfl
    (by decide)⟩

/-- C4 (the code at a failing input): `::fffe:0:0/95` is a block whose host bits are zero and
`ChunkCIDR` accepts target prefix 96. It returns `::fffe:0:0/96` followed by `0.0.0.0/0`
(the sub-block `::ffff:0:0/96` rendered as IPv4 text); read back, the base addresses are
`0xfffe00000000` and then 0, which is not ascending. -/
theorem order_broken_by_rendering :
    hostBitsZero [0, 0, 0, 0, 0, 0, 0, 0, 0, 0, 255, 254, 0, 0, 0, 0]
        ⟨[0, 0, 0, 0, 0, 0, 0, 0, 0, 0, 255, 254, 0, 0, 0, 0],
         [255, 255, 255, 255, 255, 255, 255, 255, 255, 255, 255, 254, 0, 0, 0, 0]⟩ ∧
      ChunkCIDR "::fffe:0:0/95" 96 = .ok ["::fffe:0:0/96", "0.0.0.0/0"] ∧
      ["::fffe:0:0/96", "0.0.0.0/0"].map (fun s => (readBack s).map (fun r => r.1))
        = [some 0xfffe00000000, some 0] ∧
      ¬ List.Chain' (fun a b : Nat => a < b) [0xfffe00000000, 0] :=
  ⟨by decide, rfl, rfl, by simp⟩

/-- C5: for every parsed block (original prefix `o`, width `maxBits`) and every integer
target prefix `t`, `ChunkCIDR` fails with an `InvalidPrefix` error if and only if `t < o` or
`t > maxBits`; in particular every negative `t` is rejected with `InvalidPrefix`. -/
theorem invalidPrefix_iff (cidr : String) (ip : IP) (ipnet : IPNet) (t : Int)
    (h : ParseCIDR cidr = some (ip, ipnet)) :
    (errKind (ChunkCIDR cidr t) = some ErrorKind.InvalidPrefix ↔
      (t < origPrefixOf ipnet ∨ t > maxBitsOf ip)) ∧
    (t < 0 → errKind (ChunkCIDR cidr t) = some ErrorKind.InvalidPrefix) := by
  rw [ChunkCIDR_of_parse h]
  have ho := origPrefixOf_nonneg ipnet
  rcases chunkParsed_cases ip ipnet t with c | c | c | c | c
  · obtain ⟨c1, c2⟩ := c
    rw [c2]
    exact ⟨⟨fun _ => Or.inl c1, fun _ => rfl⟩, fun _ => rfl⟩
  · obtain ⟨_, c1, c2⟩ := c
    rw [c2]
    exact ⟨⟨fun _ => Or.inr c1, fun _ => rfl⟩, fun _ => rfl⟩
  · obtain ⟨c0, c1, c2⟩ := c
    rw [c2]
    refine ⟨⟨fun hk => by simp [errKind] at hk, fun hk => by omega⟩, fun hk => by omega⟩
  · obtain ⟨c0, c1, _, c2⟩ := c
    rw [c2]
    refine ⟨⟨fun hk => by simp [errKind, ChunkErr.kind] at hk, fun hk => by omega⟩,
      fun hk => by omega⟩
  · obtain ⟨c0, c1, _, c2⟩ := c
    rw [c2]
    refine ⟨⟨fun hk => by simp [errKind] at hk, fun hk => by omega⟩, fun hk => by omega⟩

/-- C5 on the specification's scenario 6: `ChunkCIDR("192.168.1.0/24", 22)` fails with
`InvalidPrefix`. -/
theorem invalidPrefix_iff_witness :
    ParseCIDR "192.168.1.0/24" = some (IPv4 192 168 1 0, ⟨[192, 168, 1, 0], [255, 255, 255, 0]⟩) ∧
      errKind (ChunkCIDR "192.168.1.0/24" 22) = some ErrorKind.InvalidPrefix :=
  ⟨rfl, (invalidPrefix_iff "192.168.1.0/24" (IPv4 192 168 1 0)
    ⟨[192, 168, 1, 0], [255, 255, 255, 0]⟩ 22 rfl).1.2 (Or.inl (by decide))⟩

/-- C6: for every parsed block (original prefix `o`, width `maxBits`) and every size `2^k`
with `maxBits - k ≥ o`, `ChunkCIDRBySize(block, 2^k)` returns exactly the result of
`ChunkCIDR(block, maxBits - k)`: the same list on success, the same error on failure, and
that error can only be `SplitTooLarge`. -/
theorem bySize_eq_byPrefix (cidr : String) (ip : IP) (ipnet : IPNet) (k : Nat)
    (h : ParseCIDR cidr = some (ip, ipnet))
    (hk : origPrefixOf ipnet ≤ maxBitsOf ip - k) :
    ChunkCIDRBySize cidr ((2 : Int) ^ k) = ChunkCIDR cidr (maxBitsOf ip - k) ∧
    (errKind (ChunkCIDRBySize cidr ((2 : Int) ^ k)) = none ∨
      errKind (ChunkCIDRBySize cidr ((2 : Int) ^ k)) = some ErrorKind.SplitTooLarge) := by
  have e : ChunkCIDRBySize cidr ((2 : Int) ^ k) = ChunkCIDR cidr (maxBitsOf ip - k) := by
    rw [ChunkCIDRBySize_pow h k, if_neg (by omega)]
  refine ⟨e, ?_⟩
  rw [e, ChunkCIDR_of_parse h]
  have hk0 : (0 : Int) ≤ k := Int.ofNat_nonneg k
  rcases chunkParsed_cases ip ipnet (maxBitsOf ip - k) with c | c | c | c | c
  · omega
  · omega
  · left; rw [c.2.2]; rfl
  · right; rw [c.2.2.2]; rfl
  · left; rw [c.2.2.2]; rfl

/-- C6 on the specification's scenario 3: `ChunkCIDRBySize("199.66.248.0/29", 8)` is
`ChunkCIDR("199.66.248.0/29", 29)`. -/
theorem bySize_eq_byPrefix_witness :
    ParseCIDR "199.66.248.0/29"
        = some (IPv4 199 66 248 0, ⟨[199, 66, 248, 0], [255, 255, 255, 248]⟩) ∧
      ChunkCIDRBySize "199.66.248.0/29" ((2 : Int) ^ 3) = ChunkCIDR "199.66.248.0/29" (32 - 3) :=
  ⟨rfl, (bySize_eq_byPrefix "199.66.248.0/29" (IPv4 199 66 248 0)
    ⟨[199, 66, 248, 0], [255, 255, 255, 248]⟩ 3 rfl (by decide)).1⟩

/-- C7: for every parsed block (original prefix `o`, width `maxBits`) and every integer
`size`, `ChunkCIDRBySize` fails with an `InvalidSize` error if and only if `size ≤ 0`, or
`size` is not a power of two, or `size = 2^k` with `maxBits - k < o`. Moreover the bit test
`size & (size-1) != 0` rejects exactly the positive sizes that are not powers of two. -/
theorem invalidSize_iff (cidr : String) (ip : IP) (ipnet : IPNet) (size : Int)
    (h : ParseCIDR cidr = some (ip, ipnet)) :
    (errKind (ChunkCIDRBySize cidr size) = some ErrorKind.InvalidSize ↔
      (size ≤ 0 ∨ (¬ ∃ k : Nat, size = 2 ^ k) ∨
        ∃ k : Nat, size = 2 ^ k ∧ maxBitsOf ip - k < origPrefixOf ipnet)) ∧
    (0 < size → (size.toNat &&& (size - 1).toNat ≠ 0 ↔ ¬ ∃ k : Nat, size = 2 ^ k)) := by
  constructor
  · by_cases hs : size ≤ 0
    · have e : ChunkCIDRBySize cidr size = .error .sizeNotPositive := by
        unfold ChunkCIDRBySize; rw [if_pos hs]
      rw [e]
      exact ⟨fun _ => Or.inl hs, fun _ => rfl⟩
    · by_cases hp : ∃ k : Nat, size = 2 ^ k
      · obtain ⟨k, rfl⟩ := hp
        rw [ChunkCIDRBySize_pow h k]
        by_cases hlt : maxBitsOf ip - k < origPrefixOf ipnet
        · rw [if_pos hlt]
          exact ⟨fun _ => Or.inr (Or.inr ⟨k, rfl, hlt⟩), fun _ => rfl⟩
        · rw [if_neg hlt]
          constructor
          · intro hk
            exact absurd hk (ChunkCIDR_not_invalidSize _ _)
          · rintro (h1 | h1 | ⟨j, hj, hjlt⟩)
            · exact absurd h1 hs
            · exact absurd ⟨k, rfl⟩ h1
            · have hjk : (2 : Nat) ^ k = 2 ^ j := by
                rw [← toNat_two_pow k, ← toNat_two_pow j, hj]
              have : k = j := Nat.pow_right_injective (le_refl 2) hjk
              subst this
              exact absurd hjlt hlt
      · rw [ChunkCIDRBySize_not_pow cidr size (by omega) hp]
        exact ⟨fun _ => Or.inr (Or.inl hp), fun _ => rfl⟩
  · intro hs
    have hsub : (size - 1).toNat = size.toNat - 1 := by omega
    rw [hsub, Ne, and_pred_eq_zero_iff size.toNat (by omega)]
    apply not_congr
    constructor
    · rintro ⟨k, hk⟩
      refine ⟨k, ?_⟩
      have : size = ((size.toNat : Nat) : Int) := by omega
      rw [this, hk]; push_cast; rfl
    · rintro ⟨k, hk⟩
      exact ⟨k, by rw [hk, toNat_two_pow]⟩

/-- C7 on a size that is not a power of two: `ChunkCIDRBySize("192.168.0.0/24", 5)` fails
with `InvalidSize`. -/
theorem invalidSize_iff_witness :
    ParseCIDR "192.168.0.0/24"
        = some (IPv4 192 168 0 0, ⟨[192, 168, 0, 0], [255, 255, 255, 0]⟩) ∧
      errKind (ChunkCIDRBySize "192.168.0.0/24" 5) = some ErrorKind.InvalidSize :=
  ⟨rfl, (invalidSize_iff "192.168.0.0/24" (IPv4 192 168 0 0)
    ⟨[192, 168, 0, 0], [255, 255, 255, 0]⟩ 5 rfl).1.2
      (Or.inr (Or.inl (by
        rintro ⟨k, hk⟩
        rcases k with _ | k
        · omega
        · rw [pow_succ] at hk; omega)))⟩

/-- C8 (the code at a failing input): `192.168.0.5/24` parses, and `ChunkCIDR` at target
prefix 26 succeeds with four sub-blocks whose addresses all keep the host bits of the address
as written: each is 5 modulo `2^(32-26)`. At the block's own prefix 24 the same input yields
the masked network `192.168.0.0/24`. -/
theorem host_bits_kept :
    ParseCIDR "192.168.0.5/24"
        = some (IPv4 192 168 0 5, ⟨[192, 168, 0, 0], [255, 255, 255, 0]⟩) ∧
      ChunkCIDR "192.168.0.5/24" 26
        = .ok ["192.168.0.5/26", "192.168.0.69/26", "192.168.0.133/26", "192.168.0.197/26"] ∧
      (subBlocks "192.168.0.5/24" 26).map
          (List.map (fun n => addrValue 32 n.IP % 2 ^ (32 - 26)))
        = .ok [5, 5, 5, 5] ∧
      ChunkCIDR "192.168.0.5/24" 24 = .ok ["192.168.0.0/24"] :=
  ⟨rfl, rfl, rfl, rfl⟩

/-- C9 (the code at failing inputs): `ChunkCIDRBySize("::fffe:0:0/95", 2^32)` succeeds and
returns `::fffe:0:0/96` and `0.0.0.0/0`; the second text has prefix length 0, and
`2^(128 - 0)` is not the size `2^32`. `ChunkCIDRBySize("::fffd:ffff:ffff/94", 2^33)` succeeds
and returns `::fffd:ffff:ffff/95` and `255.255.255.255/0`; the second text, an IPv4 block of
prefix length 0, holds `2^32` addresses, not `2^33`, whichever width it is read with. -/
theorem bySize_prefix_broken_by_rendering :
    ChunkCIDRBySize "::fffe:0:0/95" (2 ^ 32) = .ok ["::fffe:0:0/96", "0.0.0.0/0"] ∧
      readBack "::fffe:0:0/95" = some (0xfffe00000000, 95, 128) ∧
      readBack "0.0.0.0/0" = some (0, 0, 32) ∧
      (2 : Nat) ^ (128 - 0) ≠ 2 ^ 32 ∧
      ChunkCIDRBySize "::fffd:ffff:ffff/94" (2 ^ 33)
        = .ok ["::fffd:ffff:ffff/95", "255.255.255.255/0"] ∧
      readBack "::fffd:ffff:ffff/94" = some (0xfffdffffffff, 94, 128) ∧
      readBack "255.255.255.255/0" = some (0xffffffff, 0, 32) ∧
      (2 : Nat) ^ (32 - 0) ≠ 2 ^ 33 ∧
      (2 : Nat) ^ (128 - 0) ≠ 2 ^ 33 :=
  ⟨rfl, rfl, rfl, by norm_num, rfl, rfl, rfl, by norm_num, by norm_num⟩

/-- C10: for every parsed block (original prefix `o`, width `maxBits`) and every target
prefix `t` with `o ≤ t ≤ maxBits`, `ChunkCIDR` fails with `SplitTooLarge` if and only if
`t - o > 32`; when `t - o ≤ 32` it succeeds, with `2^(t-o)` entries (so a difference of
exactly 32 is accepted and yields `2^32` sub-blocks). -/
theorem splitTooLarge_iff (cidr : String) (ip : IP) (ipnet : IPNet) (t : Int)
    (h : ParseCIDR cidr = some (ip, ipnet))
    (ho : origPrefixOf ipnet ≤ t) (hm : t ≤ maxBitsOf ip) :
    (errKind (ChunkCIDR cidr t) = some ErrorKind.SplitTooLarge ↔ t - origPrefixOf ipnet > 32) ∧
    (t - origPrefixOf ipnet ≤ 32 →
      ∃ res, ChunkCIDR cidr t = .ok res ∧ res.length = 2 ^ (t - origPrefixOf ipnet).toNat) := by
  rw [ChunkCIDR_of_parse h]
  rcases chunkParsed_cases ip ipnet t with c | c | c | c | c
  · omega
  · omega
  · obtain ⟨c0, c1, c2⟩ := c
    rw [c2]
    refine ⟨⟨fun hk => by simp [errKind] at hk, fun hk => by omega⟩, fun _ => ⟨_, rfl, ?_⟩⟩
    simp [c0]
  · obtain ⟨c0, c1, c3, c2⟩ := c
    rw [c2]
    exact ⟨⟨fun _ => c3, fun _ => rfl⟩, fun hk => by omega⟩
  · obtain ⟨c0, c1, c3, c2⟩ := c
    rw [c2]
    refine ⟨⟨fun hk => by simp [errKind] at hk, fun hk => by omega⟩, fun _ => ⟨_, rfl, ?_⟩⟩
    simp

/-- C10 at a prefix difference of exactly 32: `ChunkCIDR("0.0.0.0/0", 32)` succeeds with
`2^32` entries. -/
theorem splitTooLarge_iff_witness :
    ParseCIDR "0.0.0.0/0" = some (IPv4 0 0 0 0, ⟨[0, 0, 0, 0], [0, 0, 0, 0]⟩) ∧
      ∃ res, ChunkCIDR "0.0.0.0/0" 32 = .ok res ∧ res.length = 2 ^ 32 :=
  ⟨rfl, (splitTooLarge_iff "0.0.0.0/0" (IPv4 0 0 0 0) ⟨[0, 0, 0, 0], [0, 0, 0, 0]⟩ 32 rfl
    (by decide) (by decide)).2 (by decide)⟩

/-- C11 (the code at a failing input): `::fffe:0:0/95` is an IPv6 block whose host bits are
zero (`maxBits = 128`, original prefix 95). Split to `/96`, its second sub-block is built as
the 16-byte address `::ffff:0:0` with a 128-bit mask of 96 ones, but `IPNet.String` renders a
16-byte IPv4-mapped address as dotted IPv4 and keeps only the last four bytes of the mask:
the text returned is `0.0.0.0/0`, which re-parses as an IPv4 block of prefix length 0. -/
theorem mapped_subblock_rendered_as_ipv4 :
    ParseCIDR "::fffe:0:0/95"
        = some ([0, 0, 0, 0, 0, 0, 0, 0, 0, 0, 255, 254, 0, 0, 0, 0],
            ⟨[0, 0, 0, 0, 0, 0, 0, 0, 0, 0, 255, 254, 0, 0, 0, 0],
             [255, 255, 255, 255, 255, 255, 255, 255, 255, 255, 255, 254, 0, 0, 0, 0]⟩) ∧
      maxBitsOf [0, 0, 0, 0, 0, 0, 0, 0, 0, 0, 255, 254, 0, 0, 0, 0] = 128 ∧
      subBlocks "::fffe:0:0/95" 96
        = .ok [⟨[0, 0, 0, 0, 0, 0, 0, 0, 0, 0, 255, 254, 0, 0, 0, 0],
                [255, 255, 255, 255, 255, 255, 255, 255, 255, 255, 255, 255, 0, 0, 0, 0]⟩,
               ⟨[0, 0, 0, 0, 0, 0, 0, 0, 0, 0, 255, 255, 0, 0, 0, 0],
                [255, 255, 255, 255, 255, 255, 255, 255, 255, 255, 255, 255, 0, 0, 0, 0]⟩] ∧
      ChunkCIDR "::fffe:0:0/95" 96 = .ok ["::fffe:0:0/96", "0.0.0.0/0"] ∧
      ParseCIDR "0.0.0.0/0" = some (IPv4 0 0 0 0, ⟨[0, 0, 0, 0], [0, 0, 0, 0]⟩) ∧
      maxBitsOf (IPv4 0 0 0 0) = 32 ∧
      origPrefixOf ⟨[0, 0, 0, 0], [0, 0, 0, 0]⟩ = 0 :=
  ⟨rfl, rfl, rfl, rfl, rfl, rfl, rfl⟩

/-- C12 (as stated, refuted): the text `not-a-cidr` does not parse, yet
`ChunkCIDRBySize("not-a-cidr", 5)` fails with `InvalidSize`, not with `MalformedCIDR`: the
size is checked before the text is parsed. -/
theorem bySize_malformed_not_first :
    ParseCIDR "not-a-cidr" = none ∧
      errKind (ChunkCIDRBySize "not-a-cidr" 5) = some ErrorKind.InvalidSize ∧
      errKind (ChunkCIDRBySize "not-a-cidr" 5) ≠ some ErrorKind.MalformedCIDR :=
  ⟨rfl, rfl, by decide⟩

/-- C12 (amended): for every input text that is not parseable as a CIDR network block,
`ChunkCIDR` fails with `MalformedCIDR` for every target prefix, and `ChunkCIDRBySize` fails
with `MalformedCIDR` for every size that is a positive power of two; for every other size
`ChunkCIDRBySize` fails with `InvalidSize`, because it checks the size first. -/
theorem malformed_input (cidr : String) (h : ParseCIDR cidr = none) :
    (∀ t : Int, errKind (ChunkCIDR cidr t) = some ErrorKind.MalformedCIDR) ∧
    (∀ k : Nat, errKind (ChunkCIDRBySize cidr ((2 : Int) ^ k)) = some ErrorKind.MalformedCIDR) ∧
    (∀ size : Int, (size ≤ 0 ∨ ¬ ∃ k : Nat, size = 2 ^ k) →
      errKind (ChunkCIDRBySize cidr size) = some ErrorKind.InvalidSize) := by
  refine ⟨?_, ?_, ?_⟩
  · intro t
    simp [ChunkCIDR, h, errKind, ChunkErr.kind]
  · intro k
    have hpos : ¬ ((2 : Int) ^ k ≤ 0) := by
      have : (0 : Int) < 2 ^ k := by positivity
      omega
    have hsub : (((2 : Int) ^ k) - 1).toNat = 2 ^ k - 1 := by
      have h1 : (1 : Nat) ≤ 2 ^ k := Nat.one_le_two_pow
      have : ((2 : Int) ^ k) - 1 = ((2 ^ k - 1 : Nat) : Int) := by push_cast [h1]; rfl
      rw [this, Int.toNat_natCast]
    have hbit : ¬ (((2 : Int) ^ k).toNat &&& (((2 : Int) ^ k) - 1).toNat ≠ 0) := by
      rw [toNat_two_pow, hsub, not_not]
      exact (and_pred_eq_zero_iff _ (by positivity)).2 ⟨k, rfl⟩
    unfold ChunkCIDRBySize
    rw [if_neg hpos, if_neg hbit]
    simp [h, errKind, ChunkErr.kind]
  · intro size hs
    by_cases h0 : size ≤ 0
    · unfold ChunkCIDRBySize
      rw [if_pos h0]
      rfl
    · rcases hs with hs | hs
      · exact absurd hs h0
      · rw [ChunkCIDRBySize_not_pow cidr size (by omega) hs]
        rfl

/-- C12 (amended) on the specification's example of malformed text, `not-a-cidr`. -/
theorem malformed_input_witness :
    ParseCIDR "not-a-cidr" = none ∧
      (∀ t : Int, errKind (ChunkCIDR "not-a-cidr" t) = some ErrorKind.MalformedCIDR) ∧
      (∀ k : Nat, errKind (ChunkCIDRBySize "not-a-cidr" ((2 : Int) ^ k))
        = some ErrorKind.MalformedCIDR) ∧
      (∀ size : Int, (size ≤ 0 ∨ ¬ ∃ k : Nat, size = 2 ^ k) →
        errKind (ChunkCIDRBySize "not-a-cidr" size) = some ErrorKind.InvalidSize) :=
  ⟨rfl, malformed_input "not-a-cidr" rfl⟩

/-- C13 (as stated, refuted): `ChunkCIDRBySize("192.168.0.0/24", 64)` does not return eight
sub-blocks; a `/24` holds 256 addresses, that is four blocks of 64. -/
theorem bySize_64_not_eight :
    ¬ ∃ res, ChunkCIDRBySize "192.168.0.0/24" 64 = .ok res ∧ res.length = 8 := by
  rintro ⟨res, h, hl⟩
  have he : ChunkCIDRBySize "192.168.0.0/24" 64
      = .ok ["192.168.0.0/26", "192.168.0.64/26", "192.168.0.128/26", "192.168.0.192/26"] :=
    rfl
  rw [he] at h
  cases h
  simp at hl

/-- C13 (amended): `ChunkCIDRBySize("192.168.0.0/24", 64)` succeeds and returns four
sub-blocks, the `/26` blocks at `192.168.0.0`, `.64`, `.128` and `.192`: each has prefix
length 26, hence covers `2^(32-26) = 64` addresses, and their addresses ascend. -/
theorem bySize_64_four_blocks :
    ChunkCIDRBySize "192.168.0.0/24" 64
      = .ok ["192.168.0.0/26", "192.168.0.64/26", "192.168.0.128/26", "192.168.0.192/26"] ∧
    subBlocks "192.168.0.0/24" 26
      = .ok [⟨IPv4 192 168 0 0, [255, 255, 255, 192]⟩, ⟨IPv4 192 168 0 64, [255, 255, 255, 192]⟩,
          ⟨IPv4 192 168 0 128, [255, 255, 255, 192]⟩,
          ⟨IPv4 192 168 0 192, [255, 255, 255, 192]⟩] ∧
    prefixLen ⟨IPv4 192 168 0 0, [255, 255, 255, 192]⟩ = 26 ∧
    (2 : Nat) ^ (32 - 26) = 64 ∧
    [IPv4 192 168 0 0, IPv4 192 168 0 64, IPv4 192 168 0 128, IPv4 192 168 0 192].map
        (addrValue 32)
      = [3232235520, 3232235520 + 64, 3232235520 + 128, 3232235520 + 192] :=
  ⟨rfl, rfl, rfl, rfl, rfl⟩

/-- C14 (the code at a failing input): `255.255.255.255/31` parses with original prefix 31 and
`maxBits = 32`, and target prefix 32 passes the validation; the address computed for `i = 1`
is `base + 1 = 2^32`, which is not below `2^maxBits`: its encoding has five bytes and
`bigIntToIP` takes the truncation branch, returning `0.0.0.0`. The same happens for 128 bits
with `ffff:ffff:ffff:ffff:ffff:ffff:ffff:ffff/127` split to `/128`. -/
theorem truncation_reached :
    ParseCIDR "255.255.255.255/31"
        = some (IPv4 255 255 255 255, ⟨[255, 255, 255, 254], [255, 255, 255, 254]⟩) ∧
      origPrefixOf ⟨[255, 255, 255, 254], [255, 255, 255, 254]⟩ = 31 ∧
      maxBitsOf (IPv4 255 255 255 255) = 32 ∧
      ¬ (ipToBigInt (IPv4 255 255 255 255) + 1 * 2 ^ (32 - 32) < 2 ^ 32) ∧
      (Bytes (ipToBigInt (IPv4 255 255 255 255) + 1 * 2 ^ (32 - 32))).length = 5 ∧
      bigIntToIP (ipToBigInt (IPv4 255 255 255 255) + 1 * 2 ^ (32 - 32)) 32 = IPv4 0 0 0 0 ∧
      ChunkCIDR "255.255.255.255/31" 32 = .ok ["255.255.255.255/32", "0.0.0.0/32"] ∧
      ChunkCIDR "ffff:ffff:ffff:ffff:ffff:ffff:ffff:ffff/127" 128
        = .ok ["ffff:ffff:ffff:ffff:ffff:ffff:ffff:ffff/128", "::/128"] :=
  ⟨rfl, rfl, rfl, by decide, rfl, rfl, rfl, rfl⟩

/-- C15: after a successful parse, `ChunkCIDR` and `ChunkCIDRBySize` work with `maxBits = 32`
exactly when the parsed address is an IPv4 address, that is the 16 bytes `::ffff:a.b.c.d`
(whether the text was dotted IPv4 or IPv4-mapped IPv6), and with `maxBits = 128` otherwise:
`ChunkCIDR` rejects a target prefix above that `maxBits`, and `ChunkCIDRBySize` derives the
prefix `maxBits - k` from the size `2^k`. Consequently, when the address is IPv4 (-mapped),
every target prefix above 32 fails with `InvalidPrefix`, the block's own prefix included. -/
theorem family_selection (cidr : String) (ip : IP) (ipnet : IPNet)
    (h : ParseCIDR cidr = some (ip, ipnet)) :
    (maxBitsOf ip = 32 ↔ ∃ f : List Nat, f.length = 4 ∧ ip = v4InV6Prefix ++ f) ∧
    (maxBitsOf ip = 128 ↔ ¬ ∃ f : List Nat, f.length = 4 ∧ ip = v4InV6Prefix ++ f) ∧
    (∀ t : Int, origPrefixOf ipnet ≤ t → maxBitsOf ip < t →
      ChunkCIDR cidr t = .error (.prefixLarger t (maxBitsOf ip))) ∧
    (∀ k : Nat, ChunkCIDRBySize cidr ((2 : Int) ^ k) =
      if maxBitsOf ip - k < origPrefixOf ipnet then
        .error (.sizeTooLarge (maxBitsOf ip - k) (origPrefixOf ipnet))
      else ChunkCIDR cidr (maxBitsOf ip - k)) ∧
    ((∃ f : List Nat, f.length = 4 ∧ ip = v4InV6Prefix ++ f) →
      ∀ t : Int, 32 < t → errKind (ChunkCIDR cidr t) = some ErrorKind.InvalidPrefix) := by
  have hlen : ip.length = 16 := by
    obtain ⟨n, bits, hshape, _, _⟩ := ParseCIDR_shape cidr ip ipnet h
    rcases hshape with ⟨_, f, hf, _, rfl⟩ | ⟨_, hl, _⟩
    · simp [hf, v4InV6Prefix]
    · exact hl
  have h32 : maxBitsOf ip = 32 ↔ ∃ f : List Nat, f.length = 4 ∧ ip = v4InV6Prefix ++ f := by
    constructor
    · intro hm
      apply To4_ne_nil_sixteen ip hlen
      intro h0
      unfold maxBitsOf at hm
      rw [if_neg (by simpa using h0)] at hm
      omega
    · rintro ⟨f, hf, rfl⟩
      unfold maxBitsOf
      rw [To4_prefix_append f hf, if_pos]
      intro h0
      rw [h0] at hf
      simp at hf
  have hinv : ∀ t : Int, maxBitsOf ip < t →
      errKind (ChunkCIDR cidr t) = some ErrorKind.InvalidPrefix := by
    intro t ht
    rw [ChunkCIDR_of_parse h]
    rcases chunkParsed_cases ip ipnet t with c | c | c | c | c
    · rw [c.2]; rfl
    · rw [c.2.2]; rfl
    · omega
    · omega
    · omega
  refine ⟨h32, ?_, ?_, fun k => ChunkCIDRBySize_pow h k, ?_⟩
  · rw [← h32]
    rcases maxBitsOf_cases ip with hm | hm <;> rw [hm] <;> decide
  · intro t ho ht
    rw [ChunkCIDR_of_parse h]
    rcases chunkParsed_cases ip ipnet t with c | c | c | c | c
    · omega
    · exact c.2.2
    · omega
    · omega
    · omega
  · intro hf t ht
    exact hinv t (by rw [h32.2 hf]; exact ht)

/-- C15 on IPv4-mapped IPv6 text: `::ffff:1.2.3.0/120` has `maxBits = 32`, and its own prefix
120 is rejected with `InvalidPrefix`. -/
theorem family_selection_witness :
    ParseCIDR "::ffff:1.2.3.0/120"
        = some (IPv4 1 2 3 0,
            ⟨[0, 0, 0, 0, 0, 0, 0, 0, 0, 0, 255, 255, 1, 2, 3, 0],
             [255, 255, 255, 255, 255, 255, 255, 255, 255, 255, 255, 255, 255, 255, 255, 0]⟩) ∧
      maxBitsOf (IPv4 1 2 3 0) = 32 ∧
      errKind (ChunkCIDR "::ffff:1.2.3.0/120" 120) = some ErrorKind.InvalidPrefix :=
  ⟨rfl, rfl, (family_selection "::ffff:1.2.3.0/120" (IPv4 1 2 3 0)
    ⟨[0, 0, 0, 0, 0, 0, 0, 0, 0, 0, 255, 255, 1, 2, 3, 0],
     [255, 255, 255, 255, 255, 255, 255, 255, 255, 255, 255, 255, 255, 255, 255, 0]⟩
    rfl).2.2.2.2 ⟨[1, 2, 3, 0], rfl, rfl⟩ 120 (by decide)⟩

/-- C16 (the code at a failing input): the block `::fffe:0:0/95` has zero host bits, and
`95 ≤ 96 ≤ 97 ≤ 128`. Its split to `/96` returns the text `0.0.0.0/0` for the sub-block
`::ffff:0:0/96`; splitting that text to `/97` fails (it is read back as an IPv4 block), so the
split in two steps fails, while the direct split to `/97` succeeds with four sub-blocks. -/
theorem compose_fails_on_mapped_subblock :
    ChunkCIDR "::fffe:0:0/95" 96 = .ok ["::fffe:0:0/96", "0.0.0.0/0"] ∧
      ChunkCIDR "0.0.0.0/0" 97 = .error (.prefixLarger 97 32) ∧
      composeSplit "::fffe:0:0/95" 96 97 = .error (.prefixLarger 97 32) ∧
      ChunkCIDR "::fffe:0:0/95" 97
        = .ok ["::fffe:0:0/97", "::fffe:8000:0/97", "0.0.0.0/1", "128.0.0.0/1"] :=
  ⟨rfl, rfl, rfl, rfl⟩

/-- Two-step splits that do compose: an IPv4 block, and an IPv6 block away from the
IPv4-mapped range. -/
theorem compose_examples :
    composeSplit "10.0.0.0/8" 9 10
        = .ok ["10.0.0.0/10", "10.64.0.0/10", "10.128.0.0/10", "10.192.0.0/10"] ∧
      ChunkCIDR "10.0.0.0/8" 10
        = .ok ["10.0.0.0/10", "10.64.0.0/10", "10.128.0.0/10", "10.192.0.0/10"] ∧
      composeSplit "2001:db8::/32" 33 34
        = .ok ["2001:db8::/34", "2001:db8:4000::/34", "2001:db8:8000::/34",
            "2001:db8:c000::/34"] ∧
      ChunkCIDR "2001:db8::/32" 34
        = .ok ["2001:db8::/34", "2001:db8:4000::/34", "2001:db8:8000::/34",
            "2001:db8:c000::/34"] :=
  ⟨rfl, rfl, rfl, rfl⟩

/-- C17: for every parsed block of width 32 with original prefix `o` and every integer target
prefix `t`, `ChunkCIDR` never fails with `SplitTooLarge`, and it succeeds if and only if
`o ≤ t ≤ 32`; a `SplitTooLarge` failure therefore only occurs for blocks of width 128. -/
theorem no_cap_for_ipv4 (cidr : String) (ip : IP) (ipnet : IPNet) (t : Int)
    (h : ParseCIDR cidr = some (ip, ipnet)) :
    (maxBitsOf ip = 32 →
      errKind (ChunkCIDR cidr t) ≠ some ErrorKind.SplitTooLarge ∧
      ((∃ res, ChunkCIDR cidr t = .ok res) ↔ (origPrefixOf ipnet ≤ t ∧ t ≤ 32))) ∧
    (errKind (ChunkCIDR cidr t) = some ErrorKind.SplitTooLarge → maxBitsOf ip = 128) := by
  have ho := origPrefixOf_nonneg ipnet
  have key : maxBitsOf ip = 32 →
      errKind (ChunkCIDR cidr t) ≠ some ErrorKind.SplitTooLarge ∧
      ((∃ res, ChunkCIDR cidr t = .ok res) ↔ (origPrefixOf ipnet ≤ t ∧ t ≤ 32)) := by
    intro h32
    rw [ChunkCIDR_of_parse h]
    rcases chunkParsed_cases ip ipnet t with c | c | c | c | c
    · rw [c.2]
      refine ⟨by simp [errKind, ChunkErr.kind], ?_⟩
      constructor
      · rintro ⟨res, hres⟩; cases hres
      · rintro ⟨h1, _⟩; omega
    · rw [c.2.2]
      refine ⟨by simp [errKind, ChunkErr.kind], ?_⟩
      constructor
      · rintro ⟨res, hres⟩; cases hres
      · rintro ⟨_, h2⟩; omega
    · rw [c.2.2]
      exact ⟨by simp [errKind], fun _ => ⟨by omega, by omega⟩, fun _ => ⟨_, rfl⟩⟩
    · omega
    · rw [c.2.2.2]
      exact ⟨by simp [errKind], fun _ => ⟨by omega, by omega⟩, fun _ => ⟨_, rfl⟩⟩
  refine ⟨key, ?_⟩
  intro hs
  rcases maxBitsOf_cases ip with hm | hm
  · exact absurd hs (key hm).1
  · exact hm

/-- C17 on the whole IPv4 space: `ChunkCIDR("0.0.0.0/0", 32)` is accepted, not capped. -/
theorem no_cap_for_ipv4_witness :
    ParseCIDR "0.0.0.0/0" = some (IPv4 0 0 0 0, ⟨[0, 0, 0, 0], [0, 0, 0, 0]⟩) ∧
      errKind (ChunkCIDR "0.0.0.0/0" 32) ≠ some ErrorKind.SplitTooLarge ∧
      ∃ res, ChunkCIDR "0.0.0.0/0" 32 = .ok res :=
  ⟨rfl,
    ((no_cap_for_ipv4 "0.0.0.0/0" (IPv4 0 0 0 0) ⟨[0, 0, 0, 0], [0, 0, 0, 0]⟩ 32 rfl).1
      (by decide)).1,
    ((no_cap_for_ipv4 "0.0.0.0/0" (IPv4 0 0 0 0) ⟨[0, 0, 0, 0], [0, 0, 0, 0]⟩ 32 rfl).1
      (by decide)).2.2 ⟨by decide, by decide⟩⟩

/-- The safety cap is reached by a block of width 128: `2001:db8::/32` split to `/128`. -/
theorem splitTooLarge_reached_ipv6 :
    ChunkCIDR "2001:db8::/32" 128 = .error (.splitTooLarge 96) :=
  rfl

/-- C18: for every parsed block, `ChunkCIDRBySize` never fails with `InvalidPrefix`. For a
size `2^k` that passes its own checks (`maxBits - k ≥ o`), the derived target prefix
`maxBits - k` lies between the original prefix and `maxBits`, the call is delegated to
`ChunkCIDR` with that prefix, and the only error the delegate can return is
`SplitTooLarge`. -/
theorem bySize_never_invalidPrefix (cidr : String) (ip : IP) (ipnet : IPNet) (size : Int)
    (h : ParseCIDR cidr = some (ip, ipnet)) :
    errKind (ChunkCIDRBySize cidr size) ≠ some ErrorKind.InvalidPrefix ∧
    (∀ k : Nat, size = 2 ^ k → origPrefixOf ipnet ≤ maxBitsOf ip - k →
      (origPrefixOf ipnet ≤ maxBitsOf ip - k ∧ maxBitsOf ip - k ≤ maxBitsOf ip) ∧
      ChunkCIDRBySize cidr size = ChunkCIDR cidr (maxBitsOf ip - k) ∧
      (errKind (ChunkCIDRBySize cidr size) = none ∨
        errKind (ChunkCIDRBySize cidr size) = some ErrorKind.SplitTooLarge)) := by
  have hdel : ∀ k : Nat, origPrefixOf ipnet ≤ maxBitsOf ip - k →
      errKind (ChunkCIDR cidr (maxBitsOf ip - k)) = none ∨
      errKind (ChunkCIDR cidr (maxBitsOf ip - k)) = some ErrorKind.SplitTooLarge := by
    intro k hk
    have hk0 : (0 : Int) ≤ k := Int.ofNat_nonneg k
    rw [ChunkCIDR_of_parse h]
    rcases chunkParsed_cases ip ipnet (maxBitsOf ip - k) with c | c | c | c | c
    · omega
    · omega
    · left; rw [c.2.2]; rfl
    · right; rw [c.2.2.2]; rfl
    · left; rw [c.2.2.2]; rfl
  constructor
  · by_cases hs : size ≤ 0
    · unfold ChunkCIDRBySize
      rw [if_pos hs]
      simp [errKind, ChunkErr.kind]
    · by_cases hp : ∃ k : Nat, size = 2 ^ k
      · obtain ⟨k, rfl⟩ := hp
        rw [ChunkCIDRBySize_pow h k]
        by_cases hlt : maxBitsOf ip - k < origPrefixOf ipnet
        · rw [if_pos hlt]
          simp [errKind, ChunkErr.kind]
        · rw [if_neg hlt]
          rcases hdel k (by omega) with e | e <;> rw [e] <;> simp
      · rw [ChunkCIDRBySize_not_pow cidr size (by omega) hp]
        simp [errKind, ChunkErr.kind]
  · rintro k rfl hk
    have hk0 : (0 : Int) ≤ k := Int.ofNat_nonneg k
    have e : ChunkCIDRBySize cidr ((2 : Int) ^ k) = ChunkCIDR cidr (maxBitsOf ip - k) := by
      rw [ChunkCIDRBySize_pow h k, if_neg (by omega)]
    refine ⟨⟨hk, by omega⟩, e, ?_⟩
    rw [e]
    exact hdel k hk

/-- C18 on the claim's example: `ChunkCIDRBySize("2001:db8::/32", 1)` derives the prefix 128
and fails with `SplitTooLarge`, not with `InvalidPrefix`. -/
theorem bySize_never_invalidPrefix_witness :
    ParseCIDR "2001:db8::/32"
        = some ([32, 1, 13, 184, 0, 0, 0, 0, 0, 0, 0, 0, 0, 0, 0, 0],
            ⟨[32, 1, 13, 184, 0, 0, 0, 0, 0, 0, 0, 0, 0, 0, 0, 0],
             [255, 255, 255, 255, 0, 0, 0, 0, 0, 0, 0, 0, 0, 0, 0, 0]⟩) ∧
      errKind (ChunkCIDRBySize "2001:db8::/32" 1) ≠ some ErrorKind.InvalidPrefix ∧
      ChunkCIDRBySize "2001:db8::/32" 1 = .error (.splitTooLarge 96) :=
  ⟨rfl, (bySize_never_invalidPrefix "2001:db8::/32"
    [32, 1, 13, 184, 0, 0, 0, 0, 0, 0, 0, 0, 0, 0, 0, 0]
    ⟨[32, 1, 13, 184, 0, 0, 0, 0, 0, 0, 0, 0, 0, 0, 0, 0],
     [255, 255, 255, 255, 0, 0, 0, 0, 0, 0, 0, 0, 0, 0, 0, 0]⟩ 1 rfl).1, rfl⟩

/-- C19 (as stated, refuted): `n = 0xffff00000000` is below `2^128`, but
`ipToBigInt(bigIntToIP(n, 128))` is 0: the 16 bytes built are `::ffff:0.0.0.0`, which
`ipToBigInt` reads through `To4` as the four bytes `0.0.0.0`. -/
theorem round_trip_fails_on_mapped :
    (0xffff00000000 : Nat) < 2 ^ 128 ∧
      bigIntToIP 0xffff00000000 128 = [0, 0, 0, 0, 0, 0, 0, 0, 0, 0, 255, 255, 0, 0, 0, 0] ∧
      ipToBigInt (bigIntToIP 0xffff00000000 128) = 0 ∧
      ipToBigInt (bigIntToIP 0xffff00000000 128) ≠ 0xffff00000000 :=
  ⟨by decide, rfl, rfl, by decide⟩

/-- C19 (amended): for `maxBits` in `{32, 128}` and every `n < 2^maxBits`, `bigIntToIP(n,
maxBits)` is the address whose big-endian encoding of 4 or 16 bytes is the minimal encoding
of `n` left-padded with zero bytes; `ipToBigInt(bigIntToIP(n, maxBits)) = n` holds when
`maxBits = 32`, and when `maxBits = 128` for every `n` outside the IPv4-mapped range
`[0xffff * 2^32, 0xffff * 2^32 + 2^32)`; inside that range `ipToBigInt` prefers the 4-byte
form and returns `n - 0xffff * 2^32`. -/
theorem conversion_round_trip (n : Nat) (maxBits : Int)
    (hb : maxBits = 32 ∨ maxBits = 128) (hn : n < 2 ^ maxBits.toNat) :
    (if maxBits = 32 then To4 (bigIntToIP n maxBits) else To16 (bigIntToIP n maxBits))
      = List.replicate ((if maxBits = 32 then 4 else 16) - (Bytes n).length) 0 ++ Bytes n ∧
    addrValue maxBits (bigIntToIP n maxBits) = n ∧
    ((maxBits = 32 ∨ n < 0xffff * 2 ^ 32 ∨ 0xffff * 2 ^ 32 + 2 ^ 32 ≤ n) →
      ipToBigInt (bigIntToIP n maxBits) = n) ∧
    ((maxBits = 128 ∧ 0xffff * 2 ^ 32 ≤ n ∧ n < 0xffff * 2 ^ 32 + 2 ^ 32) →
      ipToBigInt (bigIntToIP n maxBits) = n - 0xffff * 2 ^ 32) := by
  have hval : addrValue maxBits (bigIntToIP n maxBits) = n := by
    rw [addrValue_bigIntToIP n maxBits hb]
    exact Nat.mod_eq_of_lt hn
  rcases hb with rfl | rfl
  · have hn4 : n < 256 ^ 4 := by
      have : (2 : Nat) ^ (32 : Int).toNat = 256 ^ 4 := by decide
      rw [this] at hn; exact hn
    have hl := fitBytes_length 4 (Bytes n)
    have hfit := fitBytes_of_lt n 4 hn4
    have hS : SetBytes (fitBytes 4 (Bytes n)) = n := by
      rw [SetBytes_fitBytes _ _ (Bytes_allBytes n), SetBytes_Bytes]
      exact Nat.mod_eq_of_lt hn4
    have hip : bigIntToIP n 32 = v4InV6Prefix ++ fitBytes 4 (Bytes n) := by
      rw [bigIntToIP_eq, if_pos rfl, IPv4, getD_four _ hl]
    refine ⟨?_, hval, ?_, ?_⟩
    · rw [if_pos rfl, if_pos rfl, hip, To4_prefix_append _ hl, hfit]
    · intro _
      rw [hip, ipToBigInt_prefix_append _ hl, hS]
    · rintro ⟨h, _⟩
      exact absurd h (by decide)
  · have hn16 : n < 256 ^ 16 := by
      have : (2 : Nat) ^ (128 : Int).toNat = 256 ^ 16 := by decide
      rw [this] at hn; exact hn
    have hl := fitBytes_length 16 (Bytes n)
    have hfit := fitBytes_of_lt n 16 hn16
    have hB := fitBytes_allBytes 16 (Bytes n) (Bytes_allBytes n)
    have hS : SetBytes (fitBytes 16 (Bytes n)) = n := by
      rw [SetBytes_fitBytes _ _ (Bytes_allBytes n), SetBytes_Bytes]
      exact Nat.mod_eq_of_lt hn16
    have hip : bigIntToIP n 128 = fitBytes 16 (Bytes n) := by
      rw [bigIntToIP_eq, if_neg (by decide)]
    refine ⟨?_, hval, ?_, ?_⟩
    · rw [if_neg (by decide), if_neg (by decide), hip, To16_of_length_sixteen _ hl, hfit]
    · intro hout
      rw [hip]
      by_cases h4 : To4 (fitBytes 16 (Bytes n)) = []
      · rw [ipToBigInt_of_To4_nil _ hl h4, hS]
      · exfalso
        obtain ⟨g, hg, he⟩ := To4_ne_nil_sixteen _ hl h4
        have hgb : AllBytes g := by
          intro b hbm
          apply hB
          rw [he]
          exact List.mem_append_right _ hbm
        have hg32 := SetBytes_lt g hgb
        rw [hg] at hg32
        have hv := SetBytes_prefix_append g hg
        rw [← he, hS] at hv
        norm_num at hg32 hv hout
        omega
    · rintro ⟨_, hlo, hhi⟩
      rw [hip]
      have hm : n - 0xffff * 2 ^ 32 < 256 ^ 4 := by
        norm_num at hhi ⊢
        omega
      have hgl := fitBytes_length 4 (Bytes (n - 0xffff * 2 ^ 32))
      have hgb := fitBytes_allBytes 4 (Bytes (n - 0xffff * 2 ^ 32)) (Bytes_allBytes _)
      have hgS : SetBytes (fitBytes 4 (Bytes (n - 0xffff * 2 ^ 32)))
          = n - 0xffff * 2 ^ 32 := by
        rw [SetBytes_fitBytes _ _ (Bytes_allBytes _), SetBytes_Bytes]
        exact Nat.mod_eq_of_lt hm
      have hpb : AllBytes (v4InV6Prefix ++ fitBytes 4 (Bytes (n - 0xffff * 2 ^ 32))) := by
        apply AllBytes_append _ hgb
        intro b hbm
        simp [v4InV6Prefix] at hbm
        rcases hbm with rfl | rfl <;> decide
      have heq : fitBytes 16 (Bytes n)
          = v4InV6Prefix ++ fitBytes 4 (Bytes (n - 0xffff * 2 ^ 32)) := by
        apply SetBytes_injective _ _ _ hB hpb
        · rw [hS, SetBytes_prefix_append _ hgl, hgS]
          omega
        · rw [hl, List.length_append, hgl]
          rfl
      rw [heq, ipToBigInt_prefix_append _ hgl, hgS]

/-- C19 (amended) at an IPv4 address and at an IPv6 address: `192.168.0.64` and
`2001:db8:4000::`. -/
theorem conversion_round_trip_witness :
    ((3232235584 : Nat) < 2 ^ (32 : Int).toNat ∧
      ipToBigInt (bigIntToIP 3232235584 32) = 3232235584) ∧
    ((0x20010db8400000000000000000000000 : Nat) < 2 ^ (128 : Int).toNat ∧
      ipToBigInt (bigIntToIP 0x20010db8400000000000000000000000 128)
        = 0x20010db8400000000000000000000000) :=
  ⟨⟨by decide, (conversion_round_trip 3232235584 32 (Or.inl rfl) (by decide)).2.2.1
      (Or.inl rfl)⟩,
   ⟨by decide, (conversion_round_trip 0x20010db8400000000000000000000000 128 (Or.inr rfl)
      (by decide)).2.2.1 (Or.inr (Or.inr (by decide)))⟩⟩

end Chunker
